import Mathlib

/-!
Shallow embedding of the charon IR and of its transformation passes.

The definitions below are translated from the repository sources:
- `src/charon/src/ast/types.rs` (type and trait-resolution model),
- `src/charon/src/ast/ullbc_ast_utils.rs` (the generic CFG rewrite engine),
- `src/charon/src/transform/simplify_constants.rs` (constant normalization),
- `src/charon/src/transform/reconstruct_asserts.rs` (assert reconstruction),
- `src/charon/src/transform/inline_local_panic_functions.rs` (panic folding).

The crate files declaring the ULLBC/LLBC statement types and the structured
(LLBC) traversal helpers are not part of the excerpt; where needed they are
modelled from the specification (see the doc comments starting with
`Modelled from the spec:`).

Machine integers that appear only as identifiers (declaration ids, variable
ids, block ids, spans) are modelled as `Nat`: the code never performs
arithmetic on them.
-/

set_option maxHeartbeats 1600000

namespace Charon

/-! ## Identifiers (generate_index_type! wrappers over dense usize indices) -/

abbrev TraitImplId := Nat
abbrev TraitClauseId := Nat
abbrev TraitDeclId := Nat
abbrev TypeDeclId := Nat
abbrev TypeVarId := Nat
abbrev ConstGenericVarId := Nat
abbrev GlobalDeclId := Nat
abbrev RegionId := Nat
abbrev DeBruijnId := Nat
abbrev FunDeclId := Nat
abbrev VarId := Nat
abbrev BlockId := Nat
abbrev VariantId := Nat
abbrev FieldId := Nat

/-- Trait item names (`TraitItemName(String)` in the source). -/
abbrev TraitItemName := String

/-- Source spans carry no semantic content for the passes; modelled opaquely. -/
abbrev Span := Nat

/-- Region as in `ast/types.rs`: `Static`, a bound variable in De Bruijn style,
`Erased`, or the error placeholder `Unknown`. -/
inductive Region where
  | Static
  | BVar (depth : DeBruijnId) (id : RegionId)
  | Erased
  | Unknown
  deriving DecidableEq, Repr

/-- Mutability of references and raw pointers (`RefKind` in `ast/types.rs`). -/
inductive RefKind where
  | Mut
  | Shared
  deriving DecidableEq, Repr

/-- Integer types (`IntegerTy` in `ast/types.rs`). -/
inductive IntegerTy where
  | Isize | I8 | I16 | I32 | I64 | I128
  | Usize | U8 | U16 | U32 | U64 | U128
  deriving DecidableEq, Repr

/-- Literal (scalar) types: integer, bool, char (`LiteralTy`). -/
inductive LiteralTy where
  | Integer (ity : IntegerTy)
  | Bool
  | Char
  deriving DecidableEq, Repr

/-- Scalar values, one variant per integer type; signed variants carry `Int`,
unsigned ones carry `Nat`. -/
inductive ScalarValue where
  | Isize (v : Int) | I8 (v : Int) | I16 (v : Int) | I32 (v : Int)
  | I64 (v : Int) | I128 (v : Int)
  | Usize (v : Nat) | U8 (v : Nat) | U16 (v : Nat) | U32 (v : Nat)
  | U64 (v : Nat) | U128 (v : Nat)
  deriving DecidableEq, Repr

/-- Literal values (`Literal` in the values module): scalar, bool or char. -/
inductive Literal where
  | Scalar (s : ScalarValue)
  | Bool (b : Bool)
  | Char (c : Char)
  deriving DecidableEq, Repr

/-- Const generic values: a global constant, a const-generic variable, or a
concrete literal value (`ConstGeneric` in `ast/types.rs`). -/
inductive ConstGeneric where
  | Global (id : GlobalDeclId)
  | Var (id : ConstGenericVarId)
  | Value (l : Literal)
  deriving DecidableEq, Repr

/-- Built-in types handled like primitives (`BuiltinTy`, called `AssumedTy` in
the older file `src/types.rs`): Box, raw-pointer wrappers, Array, Slice, Str. -/
inductive BuiltinTy where
  | Box
  | PtrUnique
  | PtrNonNull
  | Array
  | Slice
  | Str
  deriving DecidableEq, Repr

/-- Type identifier: a user ADT, the tuple constructor, or a built-in type. -/
inductive TypeId where
  | Adt (id : TypeDeclId)
  | Tuple
  | Builtin (b : BuiltinTy)
  deriving DecidableEq, Repr

/-- Identifier of a trait instance (`TraitInstanceId` in `ast/types.rs`).
The variants are declared in the source order, which fixes the derived total
order: `TraitImpl < Clause < ParentClause < ItemClause < SelfId <
BuiltinOrAuto < Dyn < Unknown` at the constructor level. -/
inductive TraitInstanceId where
  | TraitImpl (id : TraitImplId)
  | Clause (id : TraitClauseId)
  | ParentClause (inner : TraitInstanceId) (decl : TraitDeclId) (clause : TraitClauseId)
  | ItemClause (inner : TraitInstanceId) (decl : TraitDeclId) (item : TraitItemName)
      (clause : TraitClauseId)
  | SelfId
  | BuiltinOrAuto (decl : TraitDeclId)
  | Dyn (decl : TraitDeclId)
  | Unknown (msg : String)
  deriving DecidableEq, Repr

/-- Discriminant of a `TraitInstanceId` constructor, in declaration order
(this is what Rust's derived `Ord` compares first). -/
def TraitInstanceId.ctorIdx : TraitInstanceId → Nat
  | .TraitImpl _ => 0
  | .Clause _ => 1
  | .ParentClause .. => 2
  | .ItemClause .. => 3
  | .SelfId => 4
  | .BuiltinOrAuto _ => 5
  | .Dyn _ => 6
  | .Unknown _ => 7

/-- The derived total order on `TraitInstanceId` (`derive(Ord)` in Rust):
variants compare by declaration order first, and two values of the same
variant compare lexicographically on their fields. -/
def TraitInstanceId.cmp : TraitInstanceId → TraitInstanceId → Ordering
  | .TraitImpl a, .TraitImpl b => compare a b
  | .Clause a, .Clause b => compare a b
  | .ParentClause i1 d1 c1, .ParentClause i2 d2 c2 =>
      ((cmp i1 i2).then (compare d1 d2)).then (compare c1 c2)
  | .ItemClause i1 d1 n1 c1, .ItemClause i2 d2 n2 c2 =>
      (((cmp i1 i2).then (compare d1 d2)).then (compare n1 n2)).then (compare c1 c2)
  | .SelfId, .SelfId => .eq
  | .BuiltinOrAuto a, .BuiltinOrAuto b => compare a b
  | .Dyn a, .Dyn b => compare a b
  | .Unknown a, .Unknown b => compare a b
  | x, y => compare x.ctorIdx y.ctorIdx

/-- A value is a "local clause path" when it is a local clause, a parent-clause
projection or an item-clause projection. -/
def TraitInstanceId.isClausePath : TraitInstanceId → Bool
  | .Clause _ => true
  | .ParentClause .. => true
  | .ItemClause .. => true
  | _ => false

/-! ## Types and generic arguments

`Ty` and `GenericArgs` are mutually recursive (`ast/types.rs`). The
`trait_refs` component of `GenericArgs` is not modelled: it would make
`GenericArgs` mutually recursive with `TraitRef`, and none of the passes under
verification ever inspects it. Likewise `TraitType` keeps only the trait
instance path and the item name of the source's `TraitRef` argument, and
`DynTrait`'s existential predicate is collapsed to a unit payload. -/

mutual
inductive Ty where
  | Adt (id : TypeId) (generics : GenericArgs)
  | TypeVar (v : TypeVarId)
  | Literal (lt : LiteralTy)
  | Never
  | Ref (r : Region) (pointee : Ty) (kind : RefKind)
  | RawPtr (pointee : Ty) (kind : RefKind)
  | TraitType (tr : TraitInstanceId) (item : TraitItemName)
  | DynTrait
  | Arrow (inputs : List Ty) (output : Ty)

inductive GenericArgs where
  | mk (regions : List Region) (types : List Ty) (const_generics : List ConstGeneric)
end

/-! Structural equality on types (Rust's derived `PartialEq`), written by hand
because automatic derivation does not handle this nested recursion. -/
mutual
def Ty.beq : Ty → Ty → Bool
  | .Adt i1 g1, .Adt i2 g2 => i1 == i2 && GenericArgs.beq g1 g2
  | .TypeVar v1, .TypeVar v2 => v1 == v2
  | .Literal l1, .Literal l2 => l1 == l2
  | .Never, .Never => true
  | .Ref r1 t1 k1, .Ref r2 t2 k2 => r1 == r2 && Ty.beq t1 t2 && k1 == k2
  | .RawPtr t1 k1, .RawPtr t2 k2 => Ty.beq t1 t2 && k1 == k2
  | .TraitType tr1 n1, .TraitType tr2 n2 => tr1 == tr2 && n1 == n2
  | .DynTrait, .DynTrait => true
  | .Arrow i1 o1, .Arrow i2 o2 => Ty.beqList i1 i2 && Ty.beq o1 o2
  | _, _ => false

def Ty.beqList : List Ty → List Ty → Bool
  | [], [] => true
  | x :: xs, y :: ys => Ty.beq x y && Ty.beqList xs ys
  | _, _ => false

def GenericArgs.beq : GenericArgs → GenericArgs → Bool
  | .mk r1 t1 c1, .mk r2 t2 c2 => r1 == r2 && Ty.beqList t1 t2 && c1 == c2
end

mutual
theorem Ty.eq_of_beq : ∀ (a b : Ty), Ty.beq a b = true → a = b
  | .Adt i1 g1, .Adt i2 g2, h => by
      simp only [Ty.beq, Bool.and_eq_true, beq_iff_eq] at h
      have h2 := GenericArgs.eq_of_beqg g1 g2 h.2
      simp [h.1, h2]
  | .TypeVar v1, .TypeVar v2, h => by simp only [Ty.beq, beq_iff_eq] at h; simp [h]
  | .Literal l1, .Literal l2, h => by simp only [Ty.beq, beq_iff_eq] at h; simp [h]
  | .Never, .Never, _ => rfl
  | .Ref r1 t1 k1, .Ref r2 t2 k2, h => by
      simp only [Ty.beq, Bool.and_eq_true, beq_iff_eq] at h
      have h2 := Ty.eq_of_beq t1 t2 h.1.2
      simp [h.1.1, h2, h.2]
  | .RawPtr t1 k1, .RawPtr t2 k2, h => by
      simp only [Ty.beq, Bool.and_eq_true, beq_iff_eq] at h
      have h2 := Ty.eq_of_beq t1 t2 h.1
      simp [h2, h.2]
  | .TraitType tr1 n1, .TraitType tr2 n2, h => by
      simp only [Ty.beq, Bool.and_eq_true, beq_iff_eq] at h
      simp [h.1, h.2]
  | .DynTrait, .DynTrait, _ => rfl
  | .Arrow i1 o1, .Arrow i2 o2, h => by
      simp only [Ty.beq, Bool.and_eq_true] at h
      have h1 := Ty.eqList_of_beq i1 i2 h.1
      have h2 := Ty.eq_of_beq o1 o2 h.2
      simp [h1, h2]
  | .Adt _ _, .TypeVar _, h => by simp [Ty.beq] at h
  | .Adt _ _, .Literal _, h => by simp [Ty.beq] at h
  | .Adt _ _, .Never, h => by simp [Ty.beq] at h
  | .Adt _ _, .Ref _ _ _, h => by simp [Ty.beq] at h
  | .Adt _ _, .RawPtr _ _, h => by simp [Ty.beq] at h
  | .Adt _ _, .TraitType _ _, h => by simp [Ty.beq] at h
  | .Adt _ _, .DynTrait, h => by simp [Ty.beq] at h
  | .Adt _ _, .Arrow _ _, h => by simp [Ty.beq] at h
  | .TypeVar _, .Adt _ _, h => by simp [Ty.beq] at h
  | .TypeVar _, .Literal _, h => by simp [Ty.beq] at h
  | .TypeVar _, .Never, h => by simp [Ty.beq] at h
  | .TypeVar _, .Ref _ _ _, h => by simp [Ty.beq] at h
  | .TypeVar _, .RawPtr _ _, h => by simp [Ty.beq] at h
  | .TypeVar _, .TraitType _ _, h => by simp [Ty.beq] at h
  | .TypeVar _, .DynTrait, h => by simp [Ty.beq] at h
  | .TypeVar _, .Arrow _ _, h => by simp [Ty.beq] at h
  | .Literal _, .Adt _ _, h => by simp [Ty.beq] at h
  | .Literal _, .TypeVar _, h => by simp [Ty.beq] at h
  | .Literal _, .Never, h => by simp [Ty.beq] at h
  | .Literal _, .Ref _ _ _, h => by simp [Ty.beq] at h
  | .Literal _, .RawPtr _ _, h => by simp [Ty.beq] at h
  | .Literal _, .TraitType _ _, h => by simp [Ty.beq] at h
  | .Literal _, .DynTrait, h => by simp [Ty.beq] at h
  | .Literal _, .Arrow _ _, h => by simp [Ty.beq] at h
  | .Never, .Adt _ _, h => by simp [Ty.beq] at h
  | .Never, .TypeVar _, h => by simp [Ty.beq] at h
  | .Never, .Literal _, h => by simp [Ty.beq] at h
  | .Never, .Ref _ _ _, h => by simp [Ty.beq] at h
  | .Never, .RawPtr _ _, h => by simp [Ty.beq] at h
  | .Never, .TraitType _ _, h => by simp [Ty.beq] at h
  | .Never, .DynTrait, h => by simp [Ty.beq] at h
  | .Never, .Arrow _ _, h => by simp [Ty.beq] at h
  | .Ref _ _ _, .Adt _ _, h => by simp [Ty.beq] at h
  | .Ref _ _ _, .TypeVar _, h => by simp [Ty.beq] at h
  | .Ref _ _ _, .Literal _, h => by simp [Ty.beq] at h
  | .Ref _ _ _, .Never, h => by simp [Ty.beq] at h
  | .Ref _ _ _, .RawPtr _ _, h => by simp [Ty.beq] at h
  | .Ref _ _ _, .TraitType _ _, h => by simp [Ty.beq] at h
  | .Ref _ _ _, .DynTrait, h => by simp [Ty.beq] at h
  | .Ref _ _ _, .Arrow _ _, h => by simp [Ty.beq] at h
  | .RawPtr _ _, .Adt _ _, h => by simp [Ty.beq] at h
  | .RawPtr _ _, .TypeVar _, h => by simp [Ty.beq] at h
  | .RawPtr _ _, .Literal _, h => by simp [Ty.beq] at h
  | .RawPtr _ _, .Never, h => by simp [Ty.beq] at h
  | .RawPtr _ _, .Ref _ _ _, h => by simp [Ty.beq] at h
  | .RawPtr _ _, .TraitType _ _, h => by simp [Ty.beq] at h
  | .RawPtr _ _, .DynTrait, h => by simp [Ty.beq] at h
  | .RawPtr _ _, .Arrow _ _, h => by simp [Ty.beq] at h
  | .TraitType _ _, .Adt _ _, h => by simp [Ty.beq] at h
  | .TraitType _ _, .TypeVar _, h => by simp [Ty.beq] at h
  | .TraitType _ _, .Literal _, h => by simp [Ty.beq] at h
  | .TraitType _ _, .Never, h => by simp [Ty.beq] at h
  | .TraitType _ _, .Ref _ _ _, h => by simp [Ty.beq] at h
  | .TraitType _ _, .RawPtr _ _, h => by simp [Ty.beq] at h
  | .TraitType _ _, .DynTrait, h => by simp [Ty.beq] at h
  | .TraitType _ _, .Arrow _ _, h => by simp [Ty.beq] at h
  | .DynTrait, .Adt _ _, h => by simp [Ty.beq] at h
  | .DynTrait, .TypeVar _, h => by simp [Ty.beq] at h
  | .DynTrait, .Literal _, h => by simp [Ty.beq] at h
  | .DynTrait, .Never, h => by simp [Ty.beq] at h
  | .DynTrait, .Ref _ _ _, h => by simp [Ty.beq] at h
  | .DynTrait, .RawPtr _ _, h => by simp [Ty.beq] at h
  | .DynTrait, .TraitType _ _, h => by simp [Ty.beq] at h
  | .DynTrait, .Arrow _ _, h => by simp [Ty.beq] at h
  | .Arrow _ _, .Adt _ _, h => by simp [Ty.beq] at h
  | .Arrow _ _, .TypeVar _, h => by simp [Ty.beq] at h
  | .Arrow _ _, .Literal _, h => by simp [Ty.beq] at h
  | .Arrow _ _, .Never, h => by simp [Ty.beq] at h
  | .Arrow _ _, .Ref _ _ _, h => by simp [Ty.beq] at h
  | .Arrow _ _, .RawPtr _ _, h => by simp [Ty.beq] at h
  | .Arrow _ _, .TraitType _ _, h => by simp [Ty.beq] at h
  | .Arrow _ _, .DynTrait, h => by simp [Ty.beq] at h

theorem Ty.eqList_of_beq : ∀ (a b : List Ty), Ty.beqList a b = true → a = b
  | [], [], _ => rfl
  | x :: xs, y :: ys, h => by
      simp only [Ty.beqList, Bool.and_eq_true] at h
      have h1 := Ty.eq_of_beq x y h.1
      have h2 := Ty.eqList_of_beq xs ys h.2
      simp [h1, h2]
  | [], _ :: _, h => by simp [Ty.beqList] at h
  | _ :: _, [], h => by simp [Ty.beqList] at h

theorem GenericArgs.eq_of_beqg : ∀ (a b : GenericArgs), GenericArgs.beq a b = true → a = b
  | .mk r1 t1 c1, .mk r2 t2 c2, h => by
      simp only [GenericArgs.beq, Bool.and_eq_true, beq_iff_eq] at h
      have h2 := Ty.eqList_of_beq t1 t2 h.1.2
      simp [h.1.1, h2, h.2]
end

mutual
theorem Ty.beq_refl : ∀ (a : Ty), Ty.beq a a = true
  | .Adt i g => by simp [Ty.beq, GenericArgs.beqg_refl g]
  | .TypeVar v => by simp [Ty.beq]
  | .Literal l => by simp [Ty.beq]
  | .Never => rfl
  | .Ref r t k => by simp [Ty.beq, Ty.beq_refl t]
  | .RawPtr t k => by simp [Ty.beq, Ty.beq_refl t]
  | .TraitType tr n => by simp [Ty.beq]
  | .DynTrait => rfl
  | .Arrow i o => by simp [Ty.beq, Ty.beqList_refl i, Ty.beq_refl o]

theorem Ty.beqList_refl : ∀ (a : List Ty), Ty.beqList a a = true
  | [] => rfl
  | x :: xs => by simp [Ty.beqList, Ty.beq_refl x, Ty.beqList_refl xs]

theorem GenericArgs.beqg_refl : ∀ (a : GenericArgs), GenericArgs.beq a a = true
  | .mk r t c => by simp [GenericArgs.beq, Ty.beqList_refl t]
end

instance : DecidableEq Ty := fun a b =>
  decidable_of_iff (Ty.beq a b = true)
    ⟨Ty.eq_of_beq a b, fun h => h ▸ Ty.beq_refl a⟩

instance : DecidableEq GenericArgs := fun a b =>
  decidable_of_iff (GenericArgs.beq a b = true)
    ⟨GenericArgs.eq_of_beqg a b, fun h => h ▸ GenericArgs.beqg_refl a⟩

def GenericArgs.regions : GenericArgs → List Region
  | .mk r _ _ => r

def GenericArgs.types : GenericArgs → List Ty
  | .mk _ t _ => t

def GenericArgs.const_generics : GenericArgs → List ConstGeneric
  | .mk _ _ c => c

/-- Partial accessor mirroring `ty.kind().as_adt()`: succeeds exactly on the
`Adt` variant. -/
def Ty.as_adt : Ty → Option (TypeId × GenericArgs)
  | .Adt id generics => some (id, generics)
  | _ => none

/-- Partial accessor mirroring `adt_kind.as_builtin()` on `TypeId`. -/
def TypeId.as_builtin : TypeId → Option BuiltinTy
  | .Builtin b => some b
  | _ => none

/-! ## Places, operands and constant expressions

These types are declared in the crate's expression module, which is not part
of the excerpt; their shape is modelled from the spec (section 3,
"Control-flow body") and is pinned down by how the in-excerpt passes
destructure them. -/

/-- Projection element of a place. The passes under verification never build
or inspect projections, so the element is abstracted to an opaque index. -/
abbrev ProjectionElem := Nat

/-- A place: a local variable together with a projection path. -/
structure Place where
  var_id : VarId
  projection : List ProjectionElem
  deriving DecidableEq, Repr

/-- Reference to a global declaration: its id plus generic arguments. -/
structure GlobalDeclRef where
  id : GlobalDeclId
  generics : GenericArgs
  deriving DecidableEq

/-- Reference to a trait: an instance path plus generic arguments. -/
structure TraitRef where
  trait_id : TraitInstanceId
  generics : GenericArgs
  deriving DecidableEq

/-- Built-in function identifiers (array-to-slice and array-repeat built-ins,
used by the operator-desugaring pass). -/
inductive BuiltinFunId where
  | ArrayToSliceShared
  | ArrayToSliceMut
  | ArrayRepeat
  | BoxNew
  deriving DecidableEq

/-- Function identifier: a regular declaration or a built-in. -/
inductive FunId where
  | Regular (id : FunDeclId)
  | Builtin (b : BuiltinFunId)
  deriving DecidableEq

/-- A function reference: a plain function or a trait method. -/
inductive FunIdOrTraitMethodRef where
  | Fun (f : FunId)
  | TraitMethod (tr : TraitRef) (name : TraitItemName) (id : FunDeclId)
  deriving DecidableEq

/-- A function pointer: the function reference with its generic arguments. -/
structure FnPtr where
  func : FunIdOrTraitMethodRef
  generics : GenericArgs
  deriving DecidableEq

/-! Constant expressions (`ConstantExpr` = raw value + type). The ten
variants of `RawConstantExpr` are exactly the ones matched exhaustively by
`transform_constant_expr` in `simplify_constants.rs`. -/

mutual
inductive ConstantExpr where
  | mk (value : RawConstantExpr) (ty : Ty)

inductive RawConstantExpr where
  | Literal (l : Literal)
  | Var (v : ConstGenericVarId)
  | RawMemory (bytes : List Nat)
  | TraitConst (tr : TraitRef) (name : TraitItemName)
  | FnPtr (fp : FnPtr)
  | Global (g : GlobalDeclRef)
  | Ref (bval : ConstantExpr)
  | MutPtr (bval : ConstantExpr)
  | Adt (variant : Option VariantId) (fields : List ConstantExpr)
  | Array (fields : List ConstantExpr)
end

/-- The raw value of a constant expression (field `value` in the source). -/
def ConstantExpr.value : ConstantExpr → RawConstantExpr
  | .mk v _ => v

/-- The type of a constant expression (field `ty` in the source). -/
def ConstantExpr.ty : ConstantExpr → Ty
  | .mk _ t => t

/-! Structural equality on constant expressions (derived `PartialEq` in Rust),
written by hand because of the nested recursion. -/

mutual
def ConstantExpr.beq : ConstantExpr → ConstantExpr → Bool
  | .mk v1 t1, .mk v2 t2 => RawConstantExpr.beq v1 v2 && t1 == t2

def RawConstantExpr.beq : RawConstantExpr → RawConstantExpr → Bool
  | .Literal a, .Literal b => a == b
  | .Var a, .Var b => a == b
  | .RawMemory a, .RawMemory b => a == b
  | .TraitConst a1 a2, .TraitConst b1 b2 => a1 == b1 && a2 == b2
  | .FnPtr a, .FnPtr b => a == b
  | .Global a, .Global b => a == b
  | .Ref a, .Ref b => ConstantExpr.beq a b
  | .MutPtr a, .MutPtr b => ConstantExpr.beq a b
  | .Adt v1 f1, .Adt v2 f2 => v1 == v2 && ConstantExpr.beqList f1 f2
  | .Array f1, .Array f2 => ConstantExpr.beqList f1 f2
  | _, _ => false

def ConstantExpr.beqList : List ConstantExpr → List ConstantExpr → Bool
  | [], [] => true
  | x :: xs, y :: ys => ConstantExpr.beq x y && ConstantExpr.beqList xs ys
  | _, _ => false
end

mutual
theorem ConstantExpr.eq_of_beqc : ∀ (a b : ConstantExpr), ConstantExpr.beq a b = true → a = b
  | .mk v1 t1, .mk v2 t2, h => by
      simp only [ConstantExpr.beq, Bool.and_eq_true, beq_iff_eq] at h
      have h1 := RawConstantExpr.eq_of_beqr v1 v2 h.1
      simp [h1, h.2]

theorem RawConstantExpr.eq_of_beqr : ∀ (a b : RawConstantExpr), RawConstantExpr.beq a b = true → a = b
  | .Literal a, .Literal b, h => by simp only [RawConstantExpr.beq, beq_iff_eq] at h; simp [h]
  | .Var a, .Var b, h => by simp only [RawConstantExpr.beq, beq_iff_eq] at h; simp [h]
  | .RawMemory a, .RawMemory b, h => by simp only [RawConstantExpr.beq, beq_iff_eq] at h; simp [h]
  | .TraitConst a1 a2, .TraitConst b1 b2, h => by
      simp only [RawConstantExpr.beq, Bool.and_eq_true, beq_iff_eq] at h
      simp [h.1, h.2]
  | .FnPtr a, .FnPtr b, h => by simp only [RawConstantExpr.beq, beq_iff_eq] at h; simp [h]
  | .Global a, .Global b, h => by simp only [RawConstantExpr.beq, beq_iff_eq] at h; simp [h]
  | .Ref a, .Ref b, h => by
      have h1 := ConstantExpr.eq_of_beqc a b h
      simp [h1]
  | .MutPtr a, .MutPtr b, h => by
      have h1 := ConstantExpr.eq_of_beqc a b h
      simp [h1]
  | .Adt v1 f1, .Adt v2 f2, h => by
      simp only [RawConstantExpr.beq, Bool.and_eq_true, beq_iff_eq] at h
      have h2 := ConstantExpr.eqList_of_beqc f1 f2 h.2
      simp [h.1, h2]
  | .Array f1, .Array f2, h => by
      have h1 := ConstantExpr.eqList_of_beqc f1 f2 h
      simp [h1]
  | .Literal _, .Var _, h => by simp [RawConstantExpr.beq] at h
  | .Literal _, .RawMemory _, h => by simp [RawConstantExpr.beq] at h
  | .Literal _, .TraitConst _ _, h => by simp [RawConstantExpr.beq] at h
  | .Literal _, .FnPtr _, h => by simp [RawConstantExpr.beq] at h
  | .Literal _, .Global _, h => by simp [RawConstantExpr.beq] at h
  | .Literal _, .Ref _, h => by simp [RawConstantExpr.beq] at h
  | .Literal _, .MutPtr _, h => by simp [RawConstantExpr.beq] at h
  | .Literal _, .Adt _ _, h => by simp [RawConstantExpr.beq] at h
  | .Literal _, .Array _, h => by simp [RawConstantExpr.beq] at h
  | .Var _, .Literal _, h => by simp [RawConstantExpr.beq] at h
  | .Var _, .RawMemory _, h => by simp [RawConstantExpr.beq] at h
  | .Var _, .TraitConst _ _, h => by simp [RawConstantExpr.beq] at h
  | .Var _, .FnPtr _, h => by simp [RawConstantExpr.beq] at h
  | .Var _, .Global _, h => by simp [RawConstantExpr.beq] at h
  | .Var _, .Ref _, h => by simp [RawConstantExpr.beq] at h
  | .Var _, .MutPtr _, h => by simp [RawConstantExpr.beq] at h
  | .Var _, .Adt _ _, h => by simp [RawConstantExpr.beq] at h
  | .Var _, .Array _, h => by simp [RawConstantExpr.beq] at h
  | .RawMemory _, .Literal _, h => by simp [RawConstantExpr.beq] at h
  | .RawMemory _, .Var _, h => by simp [RawConstantExpr.beq] at h
  | .RawMemory _, .TraitConst _ _, h => by simp [RawConstantExpr.beq] at h
  | .RawMemory _, .FnPtr _, h => by simp [RawConstantExpr.beq] at h
  | .RawMemory _, .Global _, h => by simp [RawConstantExpr.beq] at h
  | .RawMemory _, .Ref _, h => by simp [RawConstantExpr.beq] at h
  | .RawMemory _, .MutPtr _, h => by simp [RawConstantExpr.beq] at h
  | .RawMemory _, .Adt _ _, h => by simp [RawConstantExpr.beq] at h
  | .RawMemory _, .Array _, h => by simp [RawConstantExpr.beq] at h
  | .TraitConst _ _, .Literal _, h => by simp [RawConstantExpr.beq] at h
  | .TraitConst _ _, .Var _, h => by simp [RawConstantExpr.beq] at h
  | .TraitConst _ _, .RawMemory _, h => by simp [RawConstantExpr.beq] at h
  | .TraitConst _ _, .FnPtr _, h => by simp [RawConstantExpr.beq] at h
  | .TraitConst _ _, .Global _, h => by simp [RawConstantExpr.beq] at h
  | .TraitConst _ _, .Ref _, h => by simp [RawConstantExpr.beq] at h
  | .TraitConst _ _, .MutPtr _, h => by simp [RawConstantExpr.beq] at h
  | .TraitConst _ _, .Adt _ _, h => by simp [RawConstantExpr.beq] at h
  | .TraitConst _ _, .Array _, h => by simp [RawConstantExpr.beq] at h
  | .FnPtr _, .Literal _, h => by simp [RawConstantExpr.beq] at h
  | .FnPtr _, .Var _, h => by simp [RawConstantExpr.beq] at h
  | .FnPtr _, .RawMemory _, h => by simp [RawConstantExpr.beq] at h
  | .FnPtr _, .TraitConst _ _, h => by simp [RawConstantExpr.beq] at h
  | .FnPtr _, .Global _, h => by simp [RawConstantExpr.beq] at h
  | .FnPtr _, .Ref _, h => by simp [RawConstantExpr.beq] at h
  | .FnPtr _, .MutPtr _, h => by simp [RawConstantExpr.beq] at h
  | .FnPtr _, .Adt _ _, h => by simp [RawConstantExpr.beq] at h
  | .FnPtr _, .Array _, h => by simp [RawConstantExpr.beq] at h
  | .Global _, .Literal _, h => by simp [RawConstantExpr.beq] at h
  | .Global _, .Var _, h => by simp [RawConstantExpr.beq] at h
  | .Global _, .RawMemory _, h => by simp [RawConstantExpr.beq] at h
  | .Global _, .TraitConst _ _, h => by simp [RawConstantExpr.beq] at h
  | .Global _, .FnPtr _, h => by simp [RawConstantExpr.beq] at h
  | .Global _, .Ref _, h => by simp [RawConstantExpr.beq] at h
  | .Global _, .MutPtr _, h => by simp [RawConstantExpr.beq] at h
  | .Global _, .Adt _ _, h => by simp [RawConstantExpr.beq] at h
  | .Global _, .Array _, h => by simp [RawConstantExpr.beq] at h
  | .Ref _, .Literal _, h => by simp [RawConstantExpr.beq] at h
  | .Ref _, .Var _, h => by simp [RawConstantExpr.beq] at h
  | .Ref _, .RawMemory _, h => by simp [RawConstantExpr.beq] at h
  | .Ref _, .TraitConst _ _, h => by simp [RawConstantExpr.beq] at h
  | .Ref _, .FnPtr _, h => by simp [RawConstantExpr.beq] at h
  | .Ref _, .Global _, h => by simp [RawConstantExpr.beq] at h
  | .Ref _, .MutPtr _, h => by simp [RawConstantExpr.beq] at h
  | .Ref _, .Adt _ _, h => by simp [RawConstantExpr.beq] at h
  | .Ref _, .Array _, h => by simp [RawConstantExpr.beq] at h
  | .MutPtr _, .Literal _, h => by simp [RawConstantExpr.beq] at h
  | .MutPtr _, .Var _, h => by simp [RawConstantExpr.beq] at h
  | .MutPtr _, .RawMemory _, h => by simp [RawConstantExpr.beq] at h
  | .MutPtr _, .TraitConst _ _, h => by simp [RawConstantExpr.beq] at h
  | .MutPtr _, .FnPtr _, h => by simp [RawConstantExpr.beq] at h
  | .MutPtr _, .Global _, h => by simp [RawConstantExpr.beq] at h
  | .MutPtr _, .Ref _, h => by simp [RawConstantExpr.beq] at h
  | .MutPtr _, .Adt _ _, h => by simp [RawConstantExpr.beq] at h
  | .MutPtr _, .Array _, h => by simp [RawConstantExpr.beq] at h
  | .Adt _ _, .Literal _, h => by simp [RawConstantExpr.beq] at h
  | .Adt _ _, .Var _, h => by simp [RawConstantExpr.beq] at h
  | .Adt _ _, .RawMemory _, h => by simp [RawConstantExpr.beq] at h
  | .Adt _ _, .TraitConst _ _, h => by simp [RawConstantExpr.beq] at h
  | .Adt _ _, .FnPtr _, h => by simp [RawConstantExpr.beq] at h
  | .Adt _ _, .Global _, h => by simp [RawConstantExpr.beq] at h
  | .Adt _ _, .Ref _, h => by simp [RawConstantExpr.beq] at h
  | .Adt _ _, .MutPtr _, h => by simp [RawConstantExpr.beq] at h
  | .Adt _ _, .Array _, h => by simp [RawConstantExpr.beq] at h
  | .Array _, .Literal _, h => by simp [RawConstantExpr.beq] at h
  | .Array _, .Var _, h => by simp [RawConstantExpr.beq] at h
  | .Array _, .RawMemory _, h => by simp [RawConstantExpr.beq] at h
  | .Array _, .TraitConst _ _, h => by simp [RawConstantExpr.beq] at h
  | .Array _, .FnPtr _, h => by simp [RawConstantExpr.beq] at h
  | .Array _, .Global _, h => by simp [RawConstantExpr.beq] at h
  | .Array _, .Ref _, h => by simp [RawConstantExpr.beq] at h
  | .Array _, .MutPtr _, h => by simp [RawConstantExpr.beq] at h
  | .Array _, .Adt _ _, h => by simp [RawConstantExpr.beq] at h

theorem ConstantExpr.eqList_of_beqc :
    ∀ (a b : List ConstantExpr), ConstantExpr.beqList a b = true → a = b
  | [], [], _ => rfl
  | x :: xs, y :: ys, h => by
      simp only [ConstantExpr.beqList, Bool.and_eq_true] at h
      have h1 := ConstantExpr.eq_of_beqc x y h.1
      have h2 := ConstantExpr.eqList_of_beqc xs ys h.2
      simp [h1, h2]
  | [], _ :: _, h => by simp [ConstantExpr.beqList] at h
  | _ :: _, [], h => by simp [ConstantExpr.beqList] at h
end

mutual
theorem ConstantExpr.beqc_refl : ∀ (a : ConstantExpr), ConstantExpr.beq a a = true
  | .mk v t => by simp [ConstantExpr.beq, RawConstantExpr.beqr_refl v]

theorem RawConstantExpr.beqr_refl : ∀ (a : RawConstantExpr), RawConstantExpr.beq a a = true
  | .Literal a => by simp [RawConstantExpr.beq]
  | .Var a => by simp [RawConstantExpr.beq]
  | .RawMemory a => by simp [RawConstantExpr.beq]
  | .TraitConst a1 a2 => by simp [RawConstantExpr.beq]
  | .FnPtr a => by simp [RawConstantExpr.beq]
  | .Global a => by simp [RawConstantExpr.beq]
  | .Ref a => by simpa [RawConstantExpr.beq] using ConstantExpr.beqc_refl a
  | .MutPtr a => by simpa [RawConstantExpr.beq] using ConstantExpr.beqc_refl a
  | .Adt v f => by simp [RawConstantExpr.beq, ConstantExpr.beqcList_refl f]
  | .Array f => by simpa [RawConstantExpr.beq] using ConstantExpr.beqcList_refl f

theorem ConstantExpr.beqcList_refl : ∀ (a : List ConstantExpr), ConstantExpr.beqList a a = true
  | [] => rfl
  | x :: xs => by simp [ConstantExpr.beqList, ConstantExpr.beqc_refl x, ConstantExpr.beqcList_refl xs]
end

instance : DecidableEq ConstantExpr := fun a b =>
  decidable_of_iff (ConstantExpr.beq a b = true)
    ⟨ConstantExpr.eq_of_beqc a b, fun h => h ▸ ConstantExpr.beqc_refl a⟩

instance : DecidableEq RawConstantExpr := fun a b =>
  decidable_of_iff (RawConstantExpr.beq a b = true)
    ⟨RawConstantExpr.eq_of_beqr a b, fun h => h ▸ RawConstantExpr.beqr_refl a⟩

/-- Operands: copy a place, move out of a place, or a constant expression. -/
inductive Operand where
  | Copy (p : Place)
  | Move (p : Place)
  | Const (c : ConstantExpr)
  deriving DecidableEq

/-- Borrow kinds (only `Shared` is built by the passes under study). -/
inductive BorrowKind where
  | Shared
  | Mut
  | TwoPhaseMut
  | Shallow
  deriving DecidableEq

/-- Binary operations are never inspected by these passes; opaque index. -/
abbrev BinOp := Nat

/-- Unary operations: negation forms plus the array-to-slice coercion that the
operator-desugaring pass rewrites. -/
inductive UnOp where
  | Not
  | Neg
  | ArrayToSlice (kind : RefKind) (ty : Ty) (len : ConstGeneric)
  deriving DecidableEq

/-- Aggregate kinds, as built by `transform_constant_expr`: an ADT with
optional variant (and the union-field slot, always `none` here), or an array
with element type and length. -/
inductive AggregateKind where
  | Adt (id : TypeId) (variant : Option VariantId) (field : Option FieldId)
      (generics : GenericArgs)
  | Array (ty : Ty) (len : ConstGeneric)
  deriving DecidableEq

/-- Right-hand sides of assignments, covering every variant the in-excerpt
passes build or destructure. -/
inductive Rvalue where
  | Use (op : Operand)
  | Ref (p : Place) (bk : BorrowKind)
  | RawPtr (p : Place) (kind : RefKind)
  | UnaryOp (op : UnOp) (arg : Operand)
  | BinaryOp (op : BinOp) (arg1 arg2 : Operand)
  | Global (g : GlobalDeclRef)
  | GlobalRef (g : GlobalDeclRef) (kind : RefKind)
  | Aggregate (kind : AggregateKind) (ops : List Operand)
  | Repeat (op : Operand) (ty : Ty) (len : ConstGeneric)
  deriving DecidableEq

/-- An assertion: an operand plus its expected boolean value. -/
structure Assert where
  cond : Operand
  expected : Bool
  deriving DecidableEq

/-- Function operand of a call: a function pointer or a moved place. -/
inductive FnOperand where
  | Regular (fp : FnPtr)
  | Move (p : Place)
  deriving DecidableEq

/-- A call: the callee, the argument operands and the destination place. -/
structure Call where
  func : FnOperand
  args : List Operand
  dest : Place
  deriving DecidableEq

/-- Names of items, modelled as their path of identifiers (the source's
`Name` is a vector of path elements; `equals_ref_name` compares the
identifiers against a reference path of strings). -/
abbrev Name := List String

/-- Abort kinds: a panic carrying the panicked symbol's name, or UB. -/
inductive AbortKind where
  | Panic (name : Name)
  | UndefinedBehavior
  deriving DecidableEq

/-! ## The generic statement-splicing engine

Translation of `BlockData::transform_sequences` / `BlockData::transform`
(`ast/ullbc_ast_utils.rs`, lines 86-122). The engine is generic in the
statement type: it is instantiated at ULLBC statements, and reused for the
structured (LLBC) statement lists, whose utility file is not in the excerpt
and is described identically by the spec (section 4.1). A rewrite function
receives the suffix `statements[i..]` (which it may rewrite in place, without
changing its length) and returns `(offset, new_statements)` pairs, meaning
"insert `new_statements` before relative offset `offset` of the suffix". -/

/-- Stable insertion into an ascending-by-key list. -/
def insertByKey (p : Nat × List α) : List (Nat × List α) → List (Nat × List α)
  | [] => [p]
  | q :: rest => if p.1 ≤ q.1 then p :: q :: rest else q :: insertByKey p rest

/-- Stable ascending sort by key (models `to_insert.sort_by_key`). -/
def sortByKey (l : List (Nat × List α)) : List (Nat × List α) :=
  l.foldr insertByKey []

/-- Insert `new` at position `n` of `l` (models `Vec::splice(n..n, new)`). -/
def spliceAt (n : Nat) (new l : List α) : List α :=
  l.take n ++ new ++ l.drop n

/-- Apply the insertion requests of one call to the rewrite function: sort
ascending by offset, then insert back-to-front (highest offset first);
offsets are relative to the loop index `i`. -/
def applyInserts (i : Nat) (ins : List (Nat × List α)) (l : List α) : List α :=
  ((sortByKey ins).reverse).foldl (fun acc p => spliceAt (i + p.1) p.2 acc) l

/-- One iteration of the `transform_sequences` loop at index `i`: offer the
suffix `statements[i..]` to `f`, then splice the statements it requests. -/
def tsStep (f : List α → List α × List (Nat × List α)) (i : Nat) (l : List α) : List α :=
  let res := f (l.drop i)
  applyInserts i res.2 (l.take i ++ res.1)

/-- The loop of `transform_sequences`: `for i in (0..len).rev()`. -/
def tsLoop (f : List α → List α × List (Nat × List α)) : Nat → List α → List α
  | 0, l => l
  | i + 1, l => tsLoop f i (tsStep f i l)

/-- `BlockData::transform_sequences` on the statement list of a block. -/
def transform_sequences (f : List α → List α × List (Nat × List α)) (l : List α) : List α :=
  tsLoop f l.length l

/-- The suffixes successively passed to the rewrite function by
`transform_sequences` (instrumentation of the same loop, used to state its
visitation contract). -/
def tsCalls (f : List α → List α × List (Nat × List α)) : Nat → List α → List (List α)
  | 0, _ => []
  | i + 1, l => l.drop i :: tsCalls f i (tsStep f i l)

/-- The rewrite function that `BlockData::transform` passes to
`transform_sequences`: apply `f` to the head statement of the suffix and
request insertion of the returned statements at offset 0 (before it). -/
def transform_wrap (f : α → α × List α) : List α → List α × List (Nat × List α)
  | [] => ([], [])
  | x :: rest =>
      let res := f x
      (res.1 :: rest, if res.2.isEmpty then [] else [(0, res.2)])

/-- `BlockData::transform`: bottom-up rewrite of each statement in place,
inserting the returned statements immediately before it. -/
def transform (f : α → α × List α) (l : List α) : List α :=
  transform_sequences (transform_wrap f) l

/-! ## Locals -/

/-- A local variable slot: index, optional name, type. -/
structure Var where
  index : VarId
  name : Option String
  ty : Ty
  deriving DecidableEq

/-- The ordered, append-only table of local variables of a body. -/
structure Locals where
  arg_count : Nat
  vars : List Var
  deriving DecidableEq

/-- `Locals::new_var`: append a fresh local of type `ty` and return the
projection-free place pointing at it. -/
def Locals.new_var (l : Locals) (name : Option String) (ty : Ty) : Place × Locals :=
  (⟨l.vars.length, []⟩, ⟨l.arg_count, l.vars ++ [⟨l.vars.length, name, ty⟩]⟩)

/-! ## ULLBC bodies (unstructured control-flow graphs) -/

namespace ULLBC

/-- Unstructured statements. The statement kinds carrying operands (assign,
call, assert) are the ones `transform_operands` visits; the others are
operand-free. -/
inductive RawStatement where
  | Assign (dest : Place) (rv : Rvalue)
  | Call (call : Charon.Call)
  | FakeRead (p : Place)
  | SetDiscriminant (p : Place) (variant : VariantId)
  | StorageDead (v : VarId)
  | Deinit (p : Place)
  | Assert (a : Charon.Assert)
  | Nop
  deriving DecidableEq

/-- A statement: span, content and attached comments. -/
structure Statement where
  span : Span
  content : RawStatement
  comments_before : List String
  deriving DecidableEq

/-- `Statement::new` (ullbc_ast_utils.rs, lines 25-33): empty comments. -/
def Statement.new (span : Span) (content : RawStatement) : Statement :=
  ⟨span, content, []⟩

/-- Targets of a switch terminator. -/
inductive SwitchTargets where
  | If (then_tgt else_tgt : BlockId)
  | SwitchInt (ity : IntegerTy) (targets : List (ScalarValue × BlockId))
      (otherwise : BlockId)
  deriving DecidableEq

/-- `SwitchTargets::get_targets` (ullbc_ast_utils.rs, lines 7-23). -/
def SwitchTargets.get_targets : SwitchTargets → List BlockId
  | .If then_tgt else_tgt => [then_tgt, else_tgt]
  | .SwitchInt _ targets otherwise => targets.map Prod.snd ++ [otherwise]

/-- Unstructured terminators: goto, switch, abort, return. -/
inductive RawTerminator where
  | Goto (target : BlockId)
  | Switch (discr : Operand) (targets : SwitchTargets)
  | Abort (k : AbortKind)
  | Return
  deriving DecidableEq

/-- A terminator: span, content and attached comments. -/
structure Terminator where
  span : Span
  content : RawTerminator
  comments_before : List String
  deriving DecidableEq

/-- A basic block: statements plus exactly one terminator. -/
structure BlockData where
  statements : List Statement
  terminator : Terminator
  deriving DecidableEq

/-- `BlockData::targets` (ullbc_ast_utils.rs, lines 46-56). -/
def BlockData.targets (b : BlockData) : List BlockId :=
  match b.terminator.content with
  | .Goto target => [target]
  | .Switch _ targets => targets.get_targets
  | .Abort _ => []
  | .Return => []

/-- An unstructured body: the locals table and the blocks. -/
structure ExprBody where
  locals : Locals
  body : List BlockData
  deriving DecidableEq

end ULLBC

/-! ## Itertools helpers used by the constant-normalization pass -/

/-- `Itertools::dedup`: remove consecutive equal elements. -/
def dedup [BEq α] : List α → List α
  | [] => []
  | [a] => [a]
  | a :: b :: rest => if a == b then dedup (b :: rest) else a :: dedup (b :: rest)

/-- `Itertools::exactly_one`, as an `Option`. -/
def exactly_one : List α → Option α
  | [a] => some a
  | _ => none

/-! ## The constant-normalization pass (`transform/simplify_constants.rs`)

Rust panics (`unwrap`, `assert_matches!`, out-of-bounds indexing) are
modelled by returning `none`. The `new_var` closure that the pass feeds to
`transform_constant_expr` (lines 137-148) is inlined as
`SimplifyConstants.new_var`; the state it mutates (the body's locals table
and the vector `nst` of freshly created statements) is threaded explicitly
as `ConstState`. -/

namespace SimplifyConstants

/-- The mutable state of the pass while it rewrites one block: the body's
locals table and the vector of statements built so far. -/
structure ConstState where
  locals : Locals
  nst : List ULLBC.Statement
  deriving DecidableEq

/-- The `new_var` closure of `transform_operand` (lines 137-148): reuse the
place when the rvalue is `Use(Move(place))`; otherwise append a fresh
unnamed local and push an assignment statement binding it to the rvalue. -/
def new_var (span : Span) (rv : Rvalue) (ty : Ty) (s : ConstState) : Place × ConstState :=
  match rv with
  | .Use (.Move place) => (place, s)
  | _ =>
      let res := s.locals.new_var none ty
      (res.1, ⟨res.2, s.nst ++ [ULLBC.Statement.new span (.Assign res.1 rv)]⟩)

mutual
/-- `transform_constant_expr` (lines 27-131): turn a constant expression into
an operand, pushing intermediate assignment statements for the non-simple
variants. -/
def transform_constant_expr (span : Span) :
    ConstantExpr → ConstState → Option (Operand × ConstState)
  | .mk (.Literal l) ty, s => some (.Const (.mk (.Literal l) ty), s)
  | .mk (.Var v) ty, s => some (.Const (.mk (.Var v) ty), s)
  | .mk (.RawMemory bytes) ty, s => some (.Const (.mk (.RawMemory bytes) ty), s)
  | .mk (.TraitConst tr n) ty, s => some (.Const (.mk (.TraitConst tr n) ty), s)
  | .mk (.FnPtr fp) ty, s => some (.Const (.mk (.FnPtr fp) ty), s)
  | .mk (.Global gref) ty, s =>
      let res := new_var span (.Global gref) ty s
      some (.Move res.1, res.2)
  | .mk (.Ref (.mk (.Global gref) _bty)) ty, s =>
      let res := new_var span (.GlobalRef gref .Shared) ty s
      some (.Move res.1, res.2)
  | .mk (.Ref (.mk bv bty)) ty, s =>
      match transform_constant_expr span (.mk bv bty) s with
      | none => none
      | some res =>
          let r2 := new_var span (.Use res.1) bty res.2
          let r3 := new_var span (.Ref r2.1 .Shared) ty r2.2
          some (.Move r3.1, r3.2)
  | .mk (.MutPtr (.mk (.Global gref) _bty)) ty, s =>
      let res := new_var span (.GlobalRef gref .Mut) ty s
      some (.Move res.1, res.2)
  | .mk (.MutPtr (.mk bv bty)) ty, s =>
      match transform_constant_expr span (.mk bv bty) s with
      | none => none
      | some res =>
          let r2 := new_var span (.Use res.1) bty res.2
          let r3 := new_var span (.RawPtr r2.1 .Mut) ty r2.2
          some (.Move r3.1, r3.2)
  | .mk (.Adt variant fields) ty, s =>
      match transform_constant_expr_list span fields s with
      | none => none
      | some res =>
          match ty.as_adt with
          | none => none
          | some adt =>
              let r2 := new_var span
                (.Aggregate (.Adt adt.1 variant none adt.2) res.1) ty res.2
              some (.Move r2.1, r2.2)
  | .mk (.Array fields) ty, s =>
      match transform_constant_expr_list span fields s with
      | none => none
      | some res =>
          let len := ConstGeneric.Value (.Scalar (.Usize res.1.length))
          match ty.as_adt with
          | none => none
          | some adt =>
              match adt.1.as_builtin with
              | none => none
              | some bty =>
                  if bty = .Array ∨ bty = .Slice then
                    match adt.2.types.head? with
                    | none => none
                    | some elt =>
                        let rval :=
                          match (if 2 ≤ res.1.length
                              then exactly_one (dedup res.1) else none) with
                          | some op => Rvalue.Repeat op elt len
                          | none => Rvalue.Aggregate (.Array elt len) res.1
                        let r2 := new_var span rval ty res.2
                        some (.Move r2.1, r2.2)
                  else
                    none

/-- Left-to-right transformation of the field list of a constant ADT or
array (the `fields.into_iter().map(...).collect()` calls). -/
def transform_constant_expr_list (span : Span) :
    List ConstantExpr → ConstState → Option (List Operand × ConstState)
  | [], s => some ([], s)
  | v :: rest, s =>
      match transform_constant_expr span v s with
      | none => none
      | some r1 =>
          match transform_constant_expr_list span rest r1.2 with
          | none => none
          | some r2 => some (r1.1 :: r2.1, r2.2)
end

/-- `transform_operand` (lines 133-154): transform constant operands,
leave the others untouched. -/
def transform_operand (span : Span) (s : ConstState) (op : Operand) :
    Option (Operand × ConstState) :=
  match op with
  | .Const val => transform_constant_expr span val s
  | op => some (op, s)

/-- Transform a list of operands in order, threading the state. -/
def transform_operands_list (span : Span) (s : ConstState) :
    List Operand → Option (List Operand × ConstState)
  | [] => some ([], s)
  | op :: rest =>
      match transform_operand span s op with
      | none => none
      | some r1 =>
          match transform_operands_list span r1.2 rest with
          | none => none
          | some r2 => some (r1.1 :: r2.1, r2.2)

/-- Visit the operands of an rvalue in field order (`dyn_visit_in_body_mut`
restricted to `Operand`), rewriting each with `transform_operand`. -/
def transform_rvalue (span : Span) (s : ConstState) :
    Rvalue → Option (Rvalue × ConstState)
  | .Use op =>
      match transform_operand span s op with
      | none => none
      | some r => some (.Use r.1, r.2)
  | .UnaryOp u arg =>
      match transform_operand span s arg with
      | none => none
      | some r => some (.UnaryOp u r.1, r.2)
  | .BinaryOp b a1 a2 =>
      match transform_operand span s a1 with
      | none => none
      | some r1 =>
          match transform_operand span r1.2 a2 with
          | none => none
          | some r2 => some (.BinaryOp b r1.1 r2.1, r2.2)
  | .Aggregate k ops =>
      match transform_operands_list span s ops with
      | none => none
      | some r => some (.Aggregate k r.1, r.2)
  | .Repeat op ty len =>
      match transform_operand span s op with
      | none => none
      | some r => some (.Repeat r.1 ty len, r.2)
  | rv => some (rv, s)

/-- Visit the operands of one statement content. -/
def transform_statement_content (span : Span) (s : ConstState) :
    ULLBC.RawStatement → Option (ULLBC.RawStatement × ConstState)
  | .Assign dest rv =>
      match transform_rvalue span s rv with
      | none => none
      | some r => some (.Assign dest r.1, r.2)
  | .Call c =>
      match transform_operands_list span s c.args with
      | none => none
      | some r => some (.Call ⟨c.func, r.1, c.dest⟩, r.2)
  | .Assert a =>
      match transform_operand span s a.cond with
      | none => none
      | some r => some (.Assert ⟨r.1, a.expected⟩, r.2)
  | st => some (st, s)

/-- Visit the operands of a terminator content (only `Switch` has one). -/
def transform_terminator_content (span : Span) (s : ConstState) :
    ULLBC.RawTerminator → Option (ULLBC.RawTerminator × ConstState)
  | .Switch discr targets =>
      match transform_operand span s discr with
      | none => none
      | some r => some (.Switch r.1 targets, r.2)
  | t => some (t, s)

/-- The statement loop of `BlockData::transform_operands` (ullbc_ast_utils,
lines 59-84), instantiated with `transform_operand`: for each statement,
rewrite its operands (pushing any fresh assignments to `nst` first), then
push the statement itself. -/
def transform_statements (locals : Locals) (nst : List ULLBC.Statement) :
    List ULLBC.Statement → Option (Locals × List ULLBC.Statement)
  | [] => some (locals, nst)
  | st :: rest =>
      match transform_statement_content st.span ⟨locals, nst⟩ st.content with
      | none => none
      | some r =>
          transform_statements r.2.locals
            (r.2.nst ++ [⟨st.span, r.1, st.comments_before⟩]) rest

/-- `BlockData::transform_operands` instantiated with `transform_operand`:
rewrite the statements, then the terminator's operands (statements created
for the terminator are appended at the end of the block). -/
def transform_block (locals : Locals) (b : ULLBC.BlockData) :
    Option (Locals × ULLBC.BlockData) :=
  match transform_statements locals [] b.statements with
  | none => none
  | some r =>
      match transform_terminator_content b.terminator.span ⟨r.1, r.2⟩
          b.terminator.content with
      | none => none
      | some rt =>
          some (rt.2.locals,
            ⟨rt.2.nst, ⟨b.terminator.span, rt.1, b.terminator.comments_before⟩⟩)

/-- Loop over the body's blocks, threading the shared locals table. -/
def transform_blocks (locals : Locals) :
    List ULLBC.BlockData → Option (Locals × List ULLBC.BlockData)
  | [] => some (locals, [])
  | b :: rest =>
      match transform_block locals b with
      | none => none
      | some r =>
          match transform_blocks r.1 rest with
          | none => none
          | some r2 => some (r2.1, r.2 :: r2.2)

/-- `Transform::transform_body` for constant normalization (lines 156-165). -/
def transform_body (body : ULLBC.ExprBody) : Option ULLBC.ExprBody :=
  match transform_blocks body.locals body.body with
  | none => none
  | some r => some ⟨r.1, r.2⟩

end SimplifyConstants

/-! ## LLBC (structured) bodies

The structured statement type is declared in the crate's llbc module, which
is not part of the excerpt; its shape is modelled from the spec (sections 3
and 4) and from how `reconstruct_asserts.rs` and
`inline_local_panic_functions.rs` destructure it. -/

namespace LLBC

mutual
inductive Statement where
  | mk (span : Span) (content : RawStatement) (comments_before : List String)

inductive RawStatement where
  | Assign (dest : Place) (rv : Rvalue)
  | Call (call : Charon.Call)
  | Assert (a : Charon.Assert)
  | Abort (k : AbortKind)
  | Return
  | Break (depth : Nat)
  | Continue (depth : Nat)
  | Nop
  | Switch (s : Switch)
  | Loop (body : Block)

inductive Switch where
  | If (cond : Operand) (then_block else_block : Block)
  | SwitchInt (discr : Operand) (ity : IntegerTy)
      (targets : List (List ScalarValue × Block)) (otherwise : Block)

inductive Block where
  | mk (span : Span) (statements : List Statement)
end

/-- Span of a structured statement. -/
def Statement.span : Statement → Span
  | .mk sp _ _ => sp

/-- Content of a structured statement. -/
def Statement.content : Statement → RawStatement
  | .mk _ c _ => c

/-- Comments attached to a structured statement. -/
def Statement.comments_before : Statement → List String
  | .mk _ _ c => c

/-- Span of a structured block. -/
def Block.span : Block → Span
  | .mk sp _ => sp

/-- Statements of a structured block. -/
def Block.statements : Block → List Statement
  | .mk _ sts => sts

/-- `Statement::new`: empty comments. -/
def Statement.new (span : Span) (content : RawStatement) : Statement :=
  ⟨span, content, []⟩

/-- `RawStatement::is_abort` (the `EnumIsA`-generated test used by the
assert-reconstruction pass). -/
def RawStatement.is_abort : RawStatement → Bool
  | .Abort _ => true
  | _ => false

/-- A structured body: the locals table and the top-level block. -/
structure ExprBody where
  locals : Locals
  body : Block

end LLBC

/-! ## The assert-reconstruction pass (`transform/reconstruct_asserts.rs`) -/

namespace ReconstructAsserts

open LLBC

/-- `transform_st` (lines 13-35): when the statement is `if cond { ... }`
whose then-branch starts with an abort, replace it in place by `Nop` and
return `[Assert { cond, expected: false }] ++ else-branch statements` for
insertion before it; otherwise change nothing and return no statements. -/
def transform_st (st : Statement) : Statement × List Statement :=
  match st with
  | .mk span (.Switch (.If op then_block else_block)) comments =>
      match then_block.statements.head? with
      | some first =>
          if first.content.is_abort then
            (⟨span, .Nop, comments⟩,
             Statement.new then_block.span (.Assert ⟨op, false⟩) :: else_block.statements)
          else
            (st, [])
      | none => (st, [])
  | _ => (st, [])

/-- The firing condition of `transform_st`: the statement is an `if` whose
then-branch's first statement is an abort. -/
def rewrite_fires : Statement → Bool
  | .mk _ (.Switch (.If _ then_block _)) _ =>
      match then_block.statements.head? with
      | some first => first.content.is_abort
      | none => false
  | _ => false

/-- Modelled from the spec: the structured-statement engine
(`Block::transform`, not in the excerpt) is, per section 4.1, the same
bottom-up insert-before engine as `BlockData::transform`
(ullbc_ast_utils.rs, lines 91-122), applied to a block's statement
sequence. -/
def transform_block (b : Block) : Block :=
  ⟨b.span, Charon.transform transform_st b.statements⟩

/-- `Transform::transform_body` (lines 37-42). -/
def transform_body (b : ExprBody) : ExprBody :=
  ⟨b.locals, transform_block b.body⟩

end ReconstructAsserts

/-! ## The panic-call-folding pass (`transform/inline_local_panic_functions.rs`) -/

namespace InlinePanic

open LLBC

/-- The canonical explicit-panic symbol `builtins::EXPLICIT_PANIC_NAME` (the
builtins module is not in the excerpt; the spec and the pass's own doc fix
the symbol as `core::panicking::panic_explicit`). -/
def EXPLICIT_PANIC_NAME : Name := ["core", "panicking", "panic_explicit"]

/-- Modelled from the spec: `Name::equals_ref_name` compares the name's
identifiers with a reference path of strings. -/
def equals_ref_name (n : Name) (ref : List String) : Bool :=
  n == ref

/-- Modelled from the spec: a function declaration as the pass sees it;
`body` is `some` when body extraction succeeded (a structured body), `none`
for the opaque error variant which every pass must treat as inert. -/
structure FunDecl where
  def_id : FunDeclId
  body : Option Block

/-- Modelled from the spec: the shared translation context, restricted to
what the pass reads and mutates — the function-declaration set. -/
structure TransformCtx where
  fun_decls : List FunDecl

/-- A declaration qualifies as a panic shim exactly when its successfully
extracted body is a single statement `Abort(Panic(name))` with `name` the
canonical explicit-panic symbol (lines 20-34). -/
def is_panic_shim (d : FunDecl) : Bool :=
  match d.body with
  | some (.mk _ [st]) =>
      match st.content with
      | .Abort (.Panic name) => equals_ref_name name EXPLICIT_PANIC_NAME
      | _ => false
  | _ => false

/-! The statement rewrite of the second phase (lines 40-55): a call whose
callee is a regular function reference to a collected panic shim becomes
`Abort(Panic(EXPLICIT_PANIC_NAME))`; everything else keeps its content.
Modelled from the spec: `visit_statements` visits every statement of the
structured body bottom-up; as this rewrite is pointwise it is modelled as a
structural map over all statements, including those in nested blocks. -/
mutual
def replace_statement (pset : List FunDeclId) : Statement → Statement
  | .mk span (.Call c) comments =>
      match c.func with
      | .Regular fp =>
          match fp.func with
          | .Fun (.Regular fid) =>
              if pset.contains fid then
                .mk span (.Abort (.Panic EXPLICIT_PANIC_NAME)) comments
              else
                .mk span (.Call c) comments
          | _ => .mk span (.Call c) comments
      | _ => .mk span (.Call c) comments
  | .mk span (.Switch (.If op tb eb)) comments =>
      .mk span (.Switch (.If op (replace_block pset tb) (replace_block pset eb))) comments
  | .mk span (.Switch (.SwitchInt discr ity targets otherwise)) comments =>
      .mk span (.Switch (.SwitchInt discr ity (replace_targets pset targets)
        (replace_block pset otherwise))) comments
  | .mk span (.Loop b) comments =>
      .mk span (.Loop (replace_block pset b)) comments
  | st => st

def replace_targets (pset : List FunDeclId) :
    List (List ScalarValue × Block) → List (List ScalarValue × Block)
  | [] => []
  | (vs, b) :: rest => (vs, replace_block pset b) :: replace_targets pset rest

def replace_statements (pset : List FunDeclId) : List Statement → List Statement
  | [] => []
  | st :: rest => replace_statement pset st :: replace_statements pset rest

def replace_block (pset : List FunDeclId) : Block → Block
  | .mk span stmts => .mk span (replace_statements pset stmts)
end

/-- First phase (lines 19-34): the ids of the qualifying panic shims. -/
def collect_panic_fns (ctx : TransformCtx) : List FunDeclId :=
  (ctx.fun_decls.filter is_panic_shim).map FunDecl.def_id

/-- Second phase, per declaration: rewrite the body when one is available. -/
def replace_decl (pset : List FunDeclId) (d : FunDecl) : FunDecl :=
  match d.body with
  | some b => { d with body := some (replace_block pset b) }
  | none => d

/-- `Transform::transform_ctx` (lines 17-61): collect the panic shims,
replace every call to one of them in every available body, then remove the
shims from the declaration set. -/
def transform_ctx (ctx : TransformCtx) : TransformCtx :=
  ⟨(ctx.fun_decls.map (replace_decl (collect_panic_fns ctx))).filter
      (fun d => ! (collect_panic_fns ctx).contains d.def_id)⟩

end InlinePanic

/-! ## Properties of the splicing engine -/

theorem spliceAt_spliceAt {α : Type} (p q : Nat) (n1 n2 l : List α)
    (hpq : p ≤ q) (hq : q ≤ l.length) :
    spliceAt p n1 (spliceAt q n2 l) =
      l.take p ++ n1 ++ ((l.drop p).take (q - p)) ++ n2 ++ l.drop q := by
  simp only [spliceAt, List.append_assoc]
  have h1 : p ≤ (l.take q).length := by
    simp [List.length_take]
    omega
  rw [List.take_append_of_le_length h1, List.drop_append_of_le_length h1,
      List.take_take]
  have h2 : min p q = p := by omega
  rw [h2, List.drop_take]

theorem length_le_spliceAt {α : Type} (n : Nat) (new l : List α) :
    l.length ≤ (spliceAt n new l).length := by
  simp [spliceAt]
  omega

theorem take_spliceAt_of_le {α : Type} (i n : Nat) (new l : List α)
    (hin : i ≤ n) (hil : i ≤ l.length) :
    (spliceAt n new l).take i = l.take i := by
  simp only [spliceAt]
  have h1 : i ≤ (l.take n).length := by
    simp [List.length_take]; omega
  rw [List.append_assoc, List.take_append_of_le_length h1, List.take_take]
  congr 1
  omega

theorem length_le_foldl_splice {α : Type} (i : Nat) :
    ∀ (ps : List (Nat × List α)) (l : List α),
      l.length ≤ (ps.foldl (fun acc p => spliceAt (i + p.1) p.2 acc) l).length
  | [], _ => le_refl _
  | p :: ps, l =>
      le_trans (length_le_spliceAt (i + p.1) p.2 l) (length_le_foldl_splice i ps _)

theorem take_foldl_splice {α : Type} (i : Nat) :
    ∀ (ps : List (Nat × List α)) (l : List α), i ≤ l.length →
      (ps.foldl (fun acc p => spliceAt (i + p.1) p.2 acc) l).take i = l.take i
  | [], _, _ => rfl
  | p :: ps, l, h => by
      have h1 := take_spliceAt_of_le i (i + p.1) p.2 l (Nat.le_add_right _ _) h
      have h2 : i ≤ (spliceAt (i + p.1) p.2 l).length :=
        le_trans h (length_le_spliceAt _ _ _)
      rw [List.foldl_cons, take_foldl_splice i ps _ h2, h1]

theorem length_le_applyInserts {α : Type} (i : Nat) (ins : List (Nat × List α))
    (l : List α) : l.length ≤ (applyInserts i ins l).length :=
  length_le_foldl_splice i _ l

theorem take_applyInserts {α : Type} (i : Nat) (ins : List (Nat × List α))
    (l : List α) (h : i ≤ l.length) : (applyInserts i ins l).take i = l.take i :=
  take_foldl_splice i _ l h

theorem take_tsStep {α : Type} (f : List α → List α × List (Nat × List α))
    (hf : ∀ s, (f s).1.length = s.length) (i : Nat) (l : List α)
    (hi : i ≤ l.length) : (tsStep f i l).take i = l.take i := by
  simp only [tsStep]
  have hbase : i ≤ (l.take i ++ (f (l.drop i)).1).length := by
    simp [hf, List.length_take]
    omega
  rw [take_applyInserts _ _ _ hbase]
  have h1 : i ≤ (l.take i).length := by simp [List.length_take]; omega
  rw [List.take_append_of_le_length h1, List.take_take]
  simp

theorem length_le_tsStep {α : Type} (f : List α → List α × List (Nat × List α))
    (hf : ∀ s, (f s).1.length = s.length) (i : Nat) (l : List α)
    (hi : i ≤ l.length) : l.length ≤ (tsStep f i l).length := by
  simp only [tsStep]
  refine le_trans ?_ (length_le_applyInserts i _ _)
  simp [hf, List.length_take]
  omega

theorem tsCalls_spec {α : Type} (f : List α → List α × List (Nat × List α))
    (hf : ∀ s, (f s).1.length = s.length) (l : List α) :
    ∀ (j : Nat) (l2 : List α), j ≤ l2.length → l2.take j = l.take j →
      (tsCalls f j l2).length = j ∧
      ∀ n, n < j → ((tsCalls f j l2)[n]?.bind List.head?) = l[j - 1 - n]?
  | 0, l2, _, _ => ⟨rfl, by omega⟩
  | j + 1, l2, hj, ht => by
      have hstep_len : j ≤ (tsStep f j l2).length :=
        le_trans (by omega) (length_le_tsStep f hf j l2 (by omega))
      have hstep_take : (tsStep f j l2).take j = l.take j := by
        rw [take_tsStep f hf j l2 (by omega)]
        have : l2.take j = (l2.take (j + 1)).take j := by
          rw [List.take_take]
          congr 1
          omega
        rw [this, ht, List.take_take]
        congr 1
        omega
      have ih := tsCalls_spec f hf l j (tsStep f j l2) hstep_len hstep_take
      constructor
      · simp [tsCalls, ih.1]
      · intro n hn
        match n with
        | 0 =>
            simp only [tsCalls, List.getElem?_cons_zero, Option.some_bind,
              Nat.add_sub_cancel, Nat.sub_zero]
            have h1 : (l2.drop j).head? = l2[j]? := by
              cases hd : l2.drop j with
              | nil =>
                  have : l2.length ≤ j := by
                    have := congrArg List.length hd
                    simp at this
                    omega
                  omega
              | cons a rest =>
                  have : l2[j]? = some a := by
                    have h2 : (l2.drop j)[0]? = some a := by simp [hd]
                    rw [List.getElem?_drop] at h2
                    simpa using h2
                  simp [hd, this]
            rw [h1]
            have h3 : l2[j]? = (l2.take (j + 1))[j]? := by
              rw [List.getElem?_take]
              simp
            rw [h3, ht, List.getElem?_take]
            simp
        | n + 1 =>
            simp only [tsCalls, List.getElem?_cons_succ]
            have := ih.2 n (by omega)
            rw [this]
            congr 1
            omega

/-! ## Shim-call detection (observables for the panic-folding pass) -/

namespace InlinePanic

mutual
def st_has_shim_call (pset : List FunDeclId) : LLBC.Statement → Bool
  | .mk _ (.Call c) _ =>
      match c.func with
      | .Regular fp =>
          match fp.func with
          | .Fun (.Regular fid) => pset.contains fid
          | _ => false
      | _ => false
  | .mk _ (.Switch (.If _ tb eb)) _ =>
      block_has_shim_call pset tb || block_has_shim_call pset eb
  | .mk _ (.Switch (.SwitchInt _ _ targets otherwise)) _ =>
      targets_have_shim_call pset targets || block_has_shim_call pset otherwise
  | .mk _ (.Loop b) _ => block_has_shim_call pset b
  | _ => false

def targets_have_shim_call (pset : List FunDeclId) :
    List (List ScalarValue × LLBC.Block) → Bool
  | [] => false
  | (_, b) :: rest =>
      block_has_shim_call pset b || targets_have_shim_call pset rest

def stmts_have_shim_call (pset : List FunDeclId) : List LLBC.Statement → Bool
  | [] => false
  | st :: rest => st_has_shim_call pset st || stmts_have_shim_call pset rest

def block_has_shim_call (pset : List FunDeclId) : LLBC.Block → Bool
  | .mk _ stmts => stmts_have_shim_call pset stmts
end

mutual
theorem replace_statement_no_shim (pset : List FunDeclId) :
    ∀ st, st_has_shim_call pset (replace_statement pset st) = false
  | .mk sp (.Call c) comments => by
      match hc : c.func with
      | .Regular fp =>
          match hfp : fp.func with
          | .Fun (.Regular fid) =>
              by_cases hmem : fid ∈ pset
              · have hm : pset.contains fid = true := by simpa using hmem
                simp [replace_statement, hc, hfp, hm, hmem, st_has_shim_call]
              · have hm : pset.contains fid = false := by simpa using hmem
                simp [replace_statement, hc, hfp, hm, hmem, st_has_shim_call]
          | .Fun (.Builtin b) => simp [replace_statement, hc, hfp, st_has_shim_call]
          | .TraitMethod tr n i => simp [replace_statement, hc, hfp, st_has_shim_call]
      | .Move p => simp [replace_statement, hc, st_has_shim_call]
  | .mk sp (.Switch (.If op tb eb)) comments => by
      simp [replace_statement, st_has_shim_call,
        replace_block_no_shim pset tb, replace_block_no_shim pset eb]
  | .mk sp (.Switch (.SwitchInt discr ity targets otherwise)) comments => by
      simp [replace_statement, st_has_shim_call,
        replace_targets_no_shim pset targets, replace_block_no_shim pset otherwise]
  | .mk sp (.Loop b) comments => by
      simp [replace_statement, st_has_shim_call, replace_block_no_shim pset b]
  | .mk sp (.Assign dest rv) comments => by simp [replace_statement, st_has_shim_call]
  | .mk sp (.Assert a) comments => by simp [replace_statement, st_has_shim_call]
  | .mk sp (.Abort k) comments => by simp [replace_statement, st_has_shim_call]
  | .mk sp .Return comments => by simp [replace_statement, st_has_shim_call]
  | .mk sp (.Break d) comments => by simp [replace_statement, st_has_shim_call]
  | .mk sp (.Continue d) comments => by simp [replace_statement, st_has_shim_call]
  | .mk sp .Nop comments => by simp [replace_statement, st_has_shim_call]

theorem replace_targets_no_shim (pset : List FunDeclId) :
    ∀ ts, targets_have_shim_call pset (replace_targets pset ts) = false
  | [] => rfl
  | (vs, b) :: rest => by
      simp [replace_targets, targets_have_shim_call,
        replace_block_no_shim pset b, replace_targets_no_shim pset rest]

theorem replace_statements_no_shim (pset : List FunDeclId) :
    ∀ sts, stmts_have_shim_call pset (replace_statements pset sts) = false
  | [] => rfl
  | st :: rest => by
      simp [replace_statements, stmts_have_shim_call,
        replace_statement_no_shim pset st, replace_statements_no_shim pset rest]

theorem replace_block_no_shim (pset : List FunDeclId) :
    ∀ b, block_has_shim_call pset (replace_block pset b) = false
  | .mk sp stmts => by
      simp [replace_block, block_has_shim_call, replace_statements_no_shim pset stmts]
end

end InlinePanic

/-! ## Properties of dedup / exactly_one and of the field-list transform -/

theorem dedup_ne_nil {α : Type} [BEq α] : ∀ (l : List α), l ≠ [] → dedup l ≠ []
  | [], h => absurd rfl h
  | [a], _ => by simp [dedup]
  | a :: b :: rest, _ => by
      simp only [dedup]
      split
      · exact dedup_ne_nil (b :: rest) (by simp)
      · simp

theorem exactly_one_dedup_iff {α : Type} [BEq α] [LawfulBEq α] (v : α) :
    ∀ (l : List α), exactly_one (dedup l) = some v ↔ (l ≠ [] ∧ ∀ y ∈ l, y = v)
  | [] => by simp [dedup, exactly_one]
  | [a] => by
      constructor
      · intro h
        have ha : a = v := by
          simpa [dedup, exactly_one] using h
        subst ha
        exact ⟨by simp, by intro y hy; simpa using hy⟩
      · rintro ⟨_, hall⟩
        have := hall a (by simp)
        subst this
        rfl
  | a :: b :: rest => by
      by_cases hab : a = b
      · have hstep : dedup (a :: b :: rest) = dedup (b :: rest) := by
          have hb : (a == b) = true := by simp [hab]
          simp [dedup, hb]
        rw [hstep, exactly_one_dedup_iff v (b :: rest)]
        constructor
        · rintro ⟨_, hall⟩
          refine ⟨by simp, ?_⟩
          intro y hy
          rcases List.mem_cons.mp hy with h1 | h1
          · rw [h1, hab]
            exact hall b (by simp)
          · exact hall y h1
        · rintro ⟨_, hall⟩
          refine ⟨by simp, ?_⟩
          intro y hy
          exact hall y (List.mem_cons_of_mem a hy)
      · have hstep : dedup (a :: b :: rest) = a :: dedup (b :: rest) := by
          have hb : (a == b) = false := by simp [hab]
          simp [dedup, hb]
        rw [hstep]
        have hne := dedup_ne_nil (b :: rest) (by simp)
        constructor
        · intro h
          match hd : dedup (b :: rest) with
          | [] => exact absurd hd hne
          | x :: xs =>
              rw [hd] at h
              simp [exactly_one] at h
        · rintro ⟨_, hall⟩
          have ha := hall a (by simp)
          have hb := hall b (by simp)
          exact absurd (ha.trans hb.symm) hab

namespace SimplifyConstants

theorem transform_constant_expr_list_length (span : Span) :
    ∀ (l : List ConstantExpr) (s : ConstState) (res : List Operand × ConstState),
      transform_constant_expr_list span l s = some res → res.1.length = l.length
  | [], s, res, h => by
      simp only [transform_constant_expr_list, Option.some.injEq] at h
      rw [← h]
      rfl
  | v :: rest, s, res, h => by
      cases heq1 : transform_constant_expr span v s with
      | none =>
          simp only [transform_constant_expr_list, heq1] at h
          exact absurd h (by simp)
      | some r1 =>
          cases heq2 : transform_constant_expr_list span rest r1.2 with
          | none =>
              simp only [transform_constant_expr_list, heq1, heq2] at h
              exact absurd h (by simp)
          | some r2 =>
              simp only [transform_constant_expr_list, heq1, heq2,
                Option.some.injEq] at h
              have ih := transform_constant_expr_list_length span rest r1.2 r2 heq2
              rw [← h]
              simp [ih]

end SimplifyConstants

namespace SimplifyConstants

/-- Evaluation of the constant-array arm of `transform_constant_expr` when
the declared type is a builtin array/slice with at least one type argument. -/
theorem transform_array_arm (span : Span) (s : ConstState)
    (fields : List ConstantExpr) (res : List Operand × ConstState)
    (bi : BuiltinTy) (rs : List Region) (elt : Ty) (tys : List Ty)
    (cgs : List ConstGeneric)
    (hbi : bi = .Array ∨ bi = .Slice)
    (hlist : transform_constant_expr_list span fields s = some res) :
    transform_constant_expr span
        (.mk (.Array fields) (.Adt (.Builtin bi) (.mk rs (elt :: tys) cgs))) s =
      (let rval :=
          match (if 2 ≤ res.1.length then exactly_one (dedup res.1) else none) with
          | some op => Rvalue.Repeat op elt
              (.Value (.Scalar (.Usize res.1.length)))
          | none => Rvalue.Aggregate
              (.Array elt (.Value (.Scalar (.Usize res.1.length)))) res.1
        let r2 := new_var span rval
          (.Adt (.Builtin bi) (.mk rs (elt :: tys) cgs)) res.2
        some (.Move r2.1, r2.2)) := by
  rcases hbi with h | h <;> subst h <;>
    simp [transform_constant_expr, hlist, Ty.as_adt, TypeId.as_builtin,
      GenericArgs.types]

end SimplifyConstants

namespace SimplifyConstants

/-- Evaluation of the reference arm of `transform_constant_expr` for a
non-global borrowed constant. -/
theorem transform_ref_arm (span : Span) (bv : RawConstantExpr) (bty ty : Ty)
    (s s1 : ConstState) (bop : Operand)
    (hbv : ∀ g, bv ≠ RawConstantExpr.Global g)
    (hrec : transform_constant_expr span (.mk bv bty) s = some (bop, s1)) :
    transform_constant_expr span (.mk (.Ref (.mk bv bty)) ty) s =
      (let r2 := new_var span (.Use bop) bty s1
       let r3 := new_var span (.Ref r2.1 .Shared) ty r2.2
       some (.Move r3.1, r3.2)) := by
  cases bv <;> first
    | exact absurd rfl (hbv _)
    | (simp only [transform_constant_expr] at hrec ⊢
       rw [hrec])
    | (simp only [transform_constant_expr, Option.some.injEq, Prod.mk.injEq] at hrec ⊢
       obtain ⟨h1, h2⟩ := hrec
       subst h1
       subst h2
       exact ⟨rfl, rfl⟩)

/-- Evaluation of the mutable-pointer arm of `transform_constant_expr` for a
non-global pointee. -/
theorem transform_mutptr_arm (span : Span) (bv : RawConstantExpr) (bty ty : Ty)
    (s s1 : ConstState) (bop : Operand)
    (hbv : ∀ g, bv ≠ RawConstantExpr.Global g)
    (hrec : transform_constant_expr span (.mk bv bty) s = some (bop, s1)) :
    transform_constant_expr span (.mk (.MutPtr (.mk bv bty)) ty) s =
      (let r2 := new_var span (.Use bop) bty s1
       let r3 := new_var span (.RawPtr r2.1 .Mut) ty r2.2
       some (.Move r3.1, r3.2)) := by
  cases bv <;> first
    | exact absurd rfl (hbv _)
    | (simp only [transform_constant_expr] at hrec ⊢
       rw [hrec])
    | (simp only [transform_constant_expr, Option.some.injEq, Prod.mk.injEq] at hrec ⊢
       obtain ⟨h1, h2⟩ := hrec
       subst h1
       subst h2
       exact ⟨rfl, rfl⟩)

end SimplifyConstants
/-! ## Normalized-constant predicates (observables for C1 and C7) -/

/-- The five constant variants that constant normalization leaves in place:
literal, variable, raw memory, trait constant, function pointer. -/
def RawConstantExpr.is_simplified : RawConstantExpr → Bool
  | .Literal _ => true
  | .Var _ => true
  | .RawMemory _ => true
  | .TraitConst _ _ => true
  | .FnPtr _ => true
  | _ => false

/-- An operand is normalized when, if it is a constant, its value is one of
the five simplified variants. -/
def Operand.normalized : Operand → Bool
  | .Const c => c.value.is_simplified
  | _ => true

/-- The operands appearing in an rvalue, in visiting order. -/
def Rvalue.operands : Rvalue → List Operand
  | .Use op => [op]
  | .UnaryOp _ arg => [arg]
  | .BinaryOp _ a1 a2 => [a1, a2]
  | .Aggregate _ ops => ops
  | .Repeat op _ _ => [op]
  | _ => []

namespace ULLBC

/-- The operands appearing in a statement content, in visiting order. -/
def RawStatement.operands : RawStatement → List Operand
  | .Assign _ rv => rv.operands
  | .Call c => c.args
  | .Assert a => [a.cond]
  | _ => []

/-- The operands appearing in a terminator content. -/
def RawTerminator.operands : RawTerminator → List Operand
  | .Switch discr _ => [discr]
  | _ => []

/-- Every operand of the statement is normalized. -/
def Statement.normalized (st : Statement) : Bool :=
  st.content.operands.all Operand.normalized

/-- Every operand of the terminator is normalized. -/
def Terminator.normalized (t : Terminator) : Bool :=
  t.content.operands.all Operand.normalized

/-- Every operand of every statement and of the terminator is normalized. -/
def BlockData.normalized (b : BlockData) : Bool :=
  b.statements.all Statement.normalized && b.terminator.normalized

/-- Every operand of every block of the body is normalized. -/
def ExprBody.normalized (body : ExprBody) : Bool :=
  body.body.all BlockData.normalized

end ULLBC

namespace SimplifyConstants

/-! Idempotence lemmas: on an already-normalized input every piece of the
pass is the identity. -/

theorem transform_constant_expr_of_simplified (span : Span)
    (v : RawConstantExpr) (ty : Ty) (s : ConstState)
    (h : v.is_simplified = true) :
    transform_constant_expr span (.mk v ty) s = some (.Const (.mk v ty), s) := by
  cases v <;> first
    | rfl
    | simp [RawConstantExpr.is_simplified] at h

theorem transform_operand_of_normalized (span : Span) (s : ConstState)
    (op : Operand) (h : op.normalized = true) :
    transform_operand span s op = some (op, s) := by
  cases op with
  | Copy p => rfl
  | Move p => rfl
  | Const c =>
      cases c with
      | mk v ty =>
          exact transform_constant_expr_of_simplified span v ty s
            (by simpa [Operand.normalized, ConstantExpr.value] using h)

theorem transform_operands_list_of_normalized (span : Span) :
    ∀ (ops : List Operand) (s : ConstState),
      (∀ op ∈ ops, op.normalized = true) →
      transform_operands_list span s ops = some (ops, s)
  | [], s, _ => rfl
  | op :: rest, s, h => by
      simp only [transform_operands_list,
        transform_operand_of_normalized span s op (h op (by simp)),
        transform_operands_list_of_normalized span rest s
          (fun o ho => h o (by simp [ho]))]

theorem transform_rvalue_of_normalized (span : Span) (s : ConstState)
    (rv : Rvalue) (h : ∀ op ∈ rv.operands, op.normalized = true) :
    transform_rvalue span s rv = some (rv, s) := by
  cases rv with
  | Use op =>
      simp only [transform_rvalue,
        transform_operand_of_normalized span s op (h op (by simp [Rvalue.operands]))]
  | UnaryOp u arg =>
      simp only [transform_rvalue,
        transform_operand_of_normalized span s arg (h arg (by simp [Rvalue.operands]))]
  | BinaryOp b a1 a2 =>
      simp only [transform_rvalue,
        transform_operand_of_normalized span s a1 (h a1 (by simp [Rvalue.operands])),
        transform_operand_of_normalized span s a2 (h a2 (by simp [Rvalue.operands]))]
  | Aggregate k ops =>
      simp only [transform_rvalue,
        transform_operands_list_of_normalized span ops s
          (fun o ho => h o (by simpa [Rvalue.operands] using ho))]
  | Repeat op ty len =>
      simp only [transform_rvalue,
        transform_operand_of_normalized span s op (h op (by simp [Rvalue.operands]))]
  | Ref p bk => rfl
  | RawPtr p k => rfl
  | Global g => rfl
  | GlobalRef g k => rfl

theorem transform_statement_content_of_normalized (span : Span)
    (s : ConstState) (content : ULLBC.RawStatement)
    (h : ∀ op ∈ content.operands, op.normalized = true) :
    transform_statement_content span s content = some (content, s) := by
  cases content with
  | Assign dest rv =>
      simp only [transform_statement_content,
        transform_rvalue_of_normalized span s rv
          (fun o ho => h o (by simpa [ULLBC.RawStatement.operands] using ho))]
  | Call c =>
      simp only [transform_statement_content,
        transform_operands_list_of_normalized span c.args s
          (fun o ho => h o (by simpa [ULLBC.RawStatement.operands] using ho))]
  | Assert a =>
      simp only [transform_statement_content,
        transform_operand_of_normalized span s a.cond
          (h a.cond (by simp [ULLBC.RawStatement.operands]))]
  | FakeRead p => rfl
  | SetDiscriminant p variant => rfl
  | StorageDead v => rfl
  | Deinit p => rfl
  | Nop => rfl

theorem transform_terminator_content_of_normalized (span : Span)
    (s : ConstState) (content : ULLBC.RawTerminator)
    (h : ∀ op ∈ content.operands, op.normalized = true) :
    transform_terminator_content span s content = some (content, s) := by
  cases content with
  | Switch discr targets =>
      simp only [transform_terminator_content,
        transform_operand_of_normalized span s discr
          (h discr (by simp [ULLBC.RawTerminator.operands]))]
  | Goto target => rfl
  | Abort k => rfl
  | Return => rfl

theorem transform_statements_of_normalized (locals : Locals) :
    ∀ (sts : List ULLBC.Statement) (nst : List ULLBC.Statement),
      (∀ st ∈ sts, st.normalized = true) →
      transform_statements locals nst sts = some (locals, nst ++ sts)
  | [], nst, _ => by simp [transform_statements]
  | st :: rest, nst, h => by
      have hst : ∀ op ∈ st.content.operands, op.normalized = true := by
        have := h st (by simp)
        simpa [ULLBC.Statement.normalized, List.all_eq_true] using this
      simp only [transform_statements,
        transform_statement_content_of_normalized st.span ⟨locals, nst⟩
          st.content hst]
      have heta : (⟨st.span, st.content, st.comments_before⟩ : ULLBC.Statement) = st := rfl
      rw [heta,
        transform_statements_of_normalized locals rest (nst ++ [st])
          (fun x hx => h x (by simp [hx]))]
      simp

theorem transform_block_of_normalized (locals : Locals) (b : ULLBC.BlockData)
    (h : b.normalized = true) : transform_block locals b = some (locals, b) := by
  have hsts : ∀ st ∈ b.statements, st.normalized = true := by
    have := h
    simp [ULLBC.BlockData.normalized, List.all_eq_true] at this
    exact this.1
  have hterm : ∀ op ∈ b.terminator.content.operands, op.normalized = true := by
    have h2 : b.terminator.normalized = true := by
      simp [ULLBC.BlockData.normalized] at h
      exact h.2
    simpa [ULLBC.Terminator.normalized, List.all_eq_true] using h2
  simp only [transform_block,
    transform_statements_of_normalized locals b.statements [] hsts,
    List.nil_append,
    transform_terminator_content_of_normalized b.terminator.span
      ⟨locals, b.statements⟩ b.terminator.content hterm]

theorem transform_blocks_of_normalized (locals : Locals) :
    ∀ (bs : List ULLBC.BlockData), (∀ b ∈ bs, b.normalized = true) →
      transform_blocks locals bs = some (locals, bs)
  | [], _ => rfl
  | b :: rest, h => by
      simp only [transform_blocks,
        transform_block_of_normalized locals b (h b (by simp)),
        transform_blocks_of_normalized locals rest (fun x hx => h x (by simp [hx]))]

theorem transform_body_of_normalized (body : ULLBC.ExprBody)
    (h : body.normalized = true) : transform_body body = some body := by
  have hbs : ∀ b ∈ body.body, b.normalized = true := by
    simpa [ULLBC.ExprBody.normalized, List.all_eq_true] using h
  simp only [transform_body,
    transform_blocks_of_normalized body.locals body.body hbs]

end SimplifyConstants
namespace SimplifyConstants

/-! Output-normalization lemmas: every operand produced by the pass is
normalized, and every statement it pushes only contains normalized
operands. -/

theorem transform_ref_arm_eq (span : Span) (bv : RawConstantExpr) (bty ty : Ty)
    (s : ConstState) (hbv : ∀ g, bv ≠ RawConstantExpr.Global g) :
    transform_constant_expr span (.mk (.Ref (.mk bv bty)) ty) s =
      (match transform_constant_expr span (.mk bv bty) s with
      | none => none
      | some res =>
          let r2 := new_var span (.Use res.1) bty res.2
          let r3 := new_var span (.Ref r2.1 .Shared) ty r2.2
          some (.Move r3.1, r3.2)) := by
  cases bv <;> first
    | exact absurd rfl (hbv _)
    | rfl

theorem transform_mutptr_arm_eq (span : Span) (bv : RawConstantExpr)
    (bty ty : Ty) (s : ConstState)
    (hbv : ∀ g, bv ≠ RawConstantExpr.Global g) :
    transform_constant_expr span (.mk (.MutPtr (.mk bv bty)) ty) s =
      (match transform_constant_expr span (.mk bv bty) s with
      | none => none
      | some res =>
          let r2 := new_var span (.Use res.1) bty res.2
          let r3 := new_var span (.RawPtr r2.1 .Mut) ty r2.2
          some (.Move r3.1, r3.2)) := by
  cases bv <;> first
    | exact absurd rfl (hbv _)
    | rfl

theorem new_var_eq (span : Span) (rv : Rvalue) (ty : Ty) (s : ConstState) :
    (new_var span rv ty s).2.nst = s.nst ∨
    (new_var span rv ty s).2.nst =
      s.nst ++ [ULLBC.Statement.new span (.Assign (new_var span rv ty s).1 rv)] := by
  cases rv with
  | Use op =>
      cases op with
      | Move p => exact Or.inl rfl
      | Copy p => exact Or.inr rfl
      | Const c => exact Or.inr rfl
  | Ref p bk => exact Or.inr rfl
  | RawPtr p k => exact Or.inr rfl
  | UnaryOp u arg => exact Or.inr rfl
  | BinaryOp b a1 a2 => exact Or.inr rfl
  | Global g => exact Or.inr rfl
  | GlobalRef g k => exact Or.inr rfl
  | Aggregate k ops => exact Or.inr rfl
  | Repeat op t len => exact Or.inr rfl

theorem new_var_nst_good (span : Span) (rv : Rvalue) (ty : Ty) (s : ConstState)
    (hs : ∀ st ∈ s.nst, st.normalized = true)
    (hrv : ∀ op ∈ rv.operands, op.normalized = true) :
    ∀ st ∈ (new_var span rv ty s).2.nst, st.normalized = true := by
  intro st hmem
  rcases new_var_eq span rv ty s with heq | heq
  · rw [heq] at hmem
    exact hs st hmem
  · rw [heq] at hmem
    rcases List.mem_append.mp hmem with h1 | h1
    · exact hs st h1
    · have h2 : st = ULLBC.Statement.new span
          (.Assign (new_var span rv ty s).1 rv) := by
        simpa using h1
      rw [h2]
      simpa [ULLBC.Statement.normalized, ULLBC.Statement.new,
        ULLBC.RawStatement.operands, List.all_eq_true] using hrv

theorem mem_of_exactly_one_dedup {α : Type} [BEq α] [LawfulBEq α] {v : α}
    {l : List α} (h : exactly_one (dedup l) = some v) : v ∈ l := by
  obtain ⟨hne, hall⟩ := (exactly_one_dedup_iff v l).mp h
  cases l with
  | nil => exact absurd rfl hne
  | cons a t =>
      have := hall a (by simp)
      rw [← this]
      simp

end SimplifyConstants
namespace SimplifyConstants

mutual
theorem transform_constant_expr_good (span : Span) :
    ∀ (ce : ConstantExpr) (s : ConstState) (res : Operand × ConstState),
      transform_constant_expr span ce s = some res →
      (∀ st ∈ s.nst, st.normalized = true) →
      res.1.normalized = true ∧ ∀ st ∈ res.2.nst, st.normalized = true
  | .mk (.Literal l) ty, s, res, h, hs => by
      simp only [transform_constant_expr, Option.some.injEq] at h
      rw [← h]
      exact ⟨rfl, hs⟩
  | .mk (.Var v) ty, s, res, h, hs => by
      simp only [transform_constant_expr, Option.some.injEq] at h
      rw [← h]
      exact ⟨rfl, hs⟩
  | .mk (.RawMemory bytes) ty, s, res, h, hs => by
      simp only [transform_constant_expr, Option.some.injEq] at h
      rw [← h]
      exact ⟨rfl, hs⟩
  | .mk (.TraitConst tr n) ty, s, res, h, hs => by
      simp only [transform_constant_expr, Option.some.injEq] at h
      rw [← h]
      exact ⟨rfl, hs⟩
  | .mk (.FnPtr fp) ty, s, res, h, hs => by
      simp only [transform_constant_expr, Option.some.injEq] at h
      rw [← h]
      exact ⟨rfl, hs⟩
  | .mk (.Global g) ty, s, res, h, hs => by
      simp only [transform_constant_expr, Option.some.injEq] at h
      rw [← h]
      exact ⟨rfl, new_var_nst_good span (.Global g) ty s hs
        (by simp [Rvalue.operands])⟩
  | .mk (.Ref (.mk bv bty)) ty, s, res, h, hs => by
      by_cases hg : ∃ g, bv = RawConstantExpr.Global g
      · obtain ⟨g, rfl⟩ := hg
        simp only [transform_constant_expr, Option.some.injEq] at h
        rw [← h]
        exact ⟨rfl, new_var_nst_good span (.GlobalRef g .Shared) ty s hs
          (by simp [Rvalue.operands])⟩
      · have hbv : ∀ g, bv ≠ RawConstantExpr.Global g :=
          fun g hEq => hg ⟨g, hEq⟩
        rw [transform_ref_arm_eq span bv bty ty s hbv] at h
        cases hrec : transform_constant_expr span (.mk bv bty) s with
        | none =>
            rw [hrec] at h
            exact Option.noConfusion h
        | some r =>
            rw [hrec] at h
            simp only [Option.some.injEq] at h
            have ih := transform_constant_expr_good span (.mk bv bty) s r hrec hs
            rw [← h]
            refine ⟨rfl, ?_⟩
            have h1 := new_var_nst_good span (.Use r.1) bty r.2 ih.2
              (by simp [Rvalue.operands, ih.1])
            exact new_var_nst_good span
              (.Ref (new_var span (.Use r.1) bty r.2).1 .Shared) ty
              (new_var span (.Use r.1) bty r.2).2 h1 (by simp [Rvalue.operands])
  | .mk (.MutPtr (.mk bv bty)) ty, s, res, h, hs => by
      by_cases hg : ∃ g, bv = RawConstantExpr.Global g
      · obtain ⟨g, rfl⟩ := hg
        simp only [transform_constant_expr, Option.some.injEq] at h
        rw [← h]
        exact ⟨rfl, new_var_nst_good span (.GlobalRef g .Mut) ty s hs
          (by simp [Rvalue.operands])⟩
      · have hbv : ∀ g, bv ≠ RawConstantExpr.Global g :=
          fun g hEq => hg ⟨g, hEq⟩
        rw [transform_mutptr_arm_eq span bv bty ty s hbv] at h
        cases hrec : transform_constant_expr span (.mk bv bty) s with
        | none =>
            rw [hrec] at h
            exact Option.noConfusion h
        | some r =>
            rw [hrec] at h
            simp only [Option.some.injEq] at h
            have ih := transform_constant_expr_good span (.mk bv bty) s r hrec hs
            rw [← h]
            refine ⟨rfl, ?_⟩
            have h1 := new_var_nst_good span (.Use r.1) bty r.2 ih.2
              (by simp [Rvalue.operands, ih.1])
            exact new_var_nst_good span
              (.RawPtr (new_var span (.Use r.1) bty r.2).1 .Mut) ty
              (new_var span (.Use r.1) bty r.2).2 h1 (by simp [Rvalue.operands])
  | .mk (.Adt variant fields) ty, s, res, h, hs => by
      cases hl : transform_constant_expr_list span fields s with
      | none =>
          simp only [transform_constant_expr, hl] at h
          exact Option.noConfusion h
      | some r =>
          cases hadt : ty.as_adt with
          | none =>
              simp only [transform_constant_expr, hl, hadt] at h
              exact Option.noConfusion h
          | some adt =>
              simp only [transform_constant_expr, hl, hadt,
                Option.some.injEq] at h
              have ih := transform_constant_expr_list_good span fields s r hl hs
              rw [← h]
              exact ⟨rfl, new_var_nst_good span
                (.Aggregate (.Adt adt.1 variant none adt.2) r.1) ty r.2 ih.2
                (by simpa [Rvalue.operands] using ih.1)⟩
  | .mk (.Array fields) ty, s, res, h, hs => by
      cases hl : transform_constant_expr_list span fields s with
      | none =>
          simp only [transform_constant_expr, hl] at h
          exact Option.noConfusion h
      | some r =>
          cases hadt : ty.as_adt with
          | none =>
              simp only [transform_constant_expr, hl, hadt] at h
              exact Option.noConfusion h
          | some adt =>
              cases hbi : adt.1.as_builtin with
              | none =>
                  simp only [transform_constant_expr, hl, hadt, hbi] at h
                  exact Option.noConfusion h
              | some bi =>
                  by_cases hcond : bi = BuiltinTy.Array ∨ bi = BuiltinTy.Slice
                  · cases hhd : adt.2.types.head? with
                    | none =>
                        simp only [transform_constant_expr, hl, hadt, hbi,
                          if_pos hcond, hhd] at h
                        exact Option.noConfusion h
                    | some elt =>
                        simp only [transform_constant_expr, hl, hadt, hbi,
                          if_pos hcond, hhd, Option.some.injEq] at h
                        have ih := transform_constant_expr_list_good span
                          fields s r hl hs
                        rw [← h]
                        refine ⟨rfl, ?_⟩
                        cases hx : (if 2 ≤ r.1.length
                            then exactly_one (dedup r.1) else none) with
                        | none =>
                            exact new_var_nst_good span
                              (.Aggregate (.Array elt (.Value (.Scalar
                                (.Usize r.1.length)))) r.1) ty r.2 ih.2
                              (by simpa [Rvalue.operands] using ih.1)
                        | some v =>
                            have hv : v ∈ r.1 := by
                              rcases Nat.decLe 2 r.1.length with hle | hle
                              · rw [if_neg hle] at hx
                                exact Option.noConfusion hx
                              · rw [if_pos hle] at hx
                                exact mem_of_exactly_one_dedup hx
                            exact new_var_nst_good span
                              (.Repeat v elt (.Value (.Scalar
                                (.Usize r.1.length)))) ty r.2 ih.2
                              (by simp [Rvalue.operands, ih.1 v hv])
                  · simp only [transform_constant_expr, hl, hadt, hbi,
                      if_neg hcond] at h
                    exact Option.noConfusion h

theorem transform_constant_expr_list_good (span : Span) :
    ∀ (l : List ConstantExpr) (s : ConstState)
      (res : List Operand × ConstState),
      transform_constant_expr_list span l s = some res →
      (∀ st ∈ s.nst, st.normalized = true) →
      (∀ op ∈ res.1, op.normalized = true) ∧
        ∀ st ∈ res.2.nst, st.normalized = true
  | [], s, res, h, hs => by
      simp only [transform_constant_expr_list, Option.some.injEq] at h
      rw [← h]
      exact ⟨by simp, hs⟩
  | v :: rest, s, res, h, hs => by
      cases h1 : transform_constant_expr span v s with
      | none =>
          simp only [transform_constant_expr_list, h1] at h
          exact Option.noConfusion h
      | some r1 =>
          cases h2 : transform_constant_expr_list span rest r1.2 with
          | none =>
              simp only [transform_constant_expr_list, h1, h2] at h
              exact Option.noConfusion h
          | some r2 =>
              simp only [transform_constant_expr_list, h1, h2,
                Option.some.injEq] at h
              have ih1 := transform_constant_expr_good span v s r1 h1 hs
              have ih2 := transform_constant_expr_list_good span rest r1.2 r2
                h2 ih1.2
              rw [← h]
              refine ⟨?_, ih2.2⟩
              intro op hop
              rcases List.mem_cons.mp hop with h3 | h3
              · rw [h3]
                exact ih1.1
              · exact ih2.1 op h3
end

end SimplifyConstants
namespace SimplifyConstants

theorem transform_operand_good (span : Span) (s : ConstState) (op : Operand)
    (res : Operand × ConstState) (h : transform_operand span s op = some res)
    (hs : ∀ st ∈ s.nst, st.normalized = true) :
    res.1.normalized = true ∧ ∀ st ∈ res.2.nst, st.normalized = true := by
  cases op with
  | Copy p =>
      simp only [transform_operand, Option.some.injEq] at h
      rw [← h]
      exact ⟨rfl, hs⟩
  | Move p =>
      simp only [transform_operand, Option.some.injEq] at h
      rw [← h]
      exact ⟨rfl, hs⟩
  | Const c =>
      exact transform_constant_expr_good span c s res h hs

theorem transform_operands_list_good (span : Span) :
    ∀ (ops : List Operand) (s : ConstState)
      (res : List Operand × ConstState),
      transform_operands_list span s ops = some res →
      (∀ st ∈ s.nst, st.normalized = true) →
      (∀ op ∈ res.1, op.normalized = true) ∧
        ∀ st ∈ res.2.nst, st.normalized = true
  | [], s, res, h, hs => by
      simp only [transform_operands_list, Option.some.injEq] at h
      rw [← h]
      exact ⟨by simp, hs⟩
  | op :: rest, s, res, h, hs => by
      cases h1 : transform_operand span s op with
      | none =>
          simp only [transform_operands_list, h1] at h
          exact Option.noConfusion h
      | some r1 =>
          cases h2 : transform_operands_list span r1.2 rest with
          | none =>
              simp only [transform_operands_list, h1, h2] at h
              exact Option.noConfusion h
          | some r2 =>
              simp only [transform_operands_list, h1, h2,
                Option.some.injEq] at h
              have ih1 := transform_operand_good span s op r1 h1 hs
              have ih2 := transform_operands_list_good span rest r1.2 r2 h2 ih1.2
              rw [← h]
              refine ⟨?_, ih2.2⟩
              intro o ho
              rcases List.mem_cons.mp ho with h3 | h3
              · rw [h3]
                exact ih1.1
              · exact ih2.1 o h3

theorem transform_rvalue_good (span : Span) (s : ConstState) (rv : Rvalue)
    (res : Rvalue × ConstState) (h : transform_rvalue span s rv = some res)
    (hs : ∀ st ∈ s.nst, st.normalized = true) :
    (∀ op ∈ res.1.operands, op.normalized = true) ∧
      ∀ st ∈ res.2.nst, st.normalized = true := by
  cases rv with
  | Use op =>
      cases h1 : transform_operand span s op with
      | none =>
          simp only [transform_rvalue, h1] at h
          exact Option.noConfusion h
      | some r =>
          simp only [transform_rvalue, h1, Option.some.injEq] at h
          have ih := transform_operand_good span s op r h1 hs
          rw [← h]
          exact ⟨by simpa [Rvalue.operands] using ih.1, ih.2⟩
  | UnaryOp u arg =>
      cases h1 : transform_operand span s arg with
      | none =>
          simp only [transform_rvalue, h1] at h
          exact Option.noConfusion h
      | some r =>
          simp only [transform_rvalue, h1, Option.some.injEq] at h
          have ih := transform_operand_good span s arg r h1 hs
          rw [← h]
          exact ⟨by simpa [Rvalue.operands] using ih.1, ih.2⟩
  | BinaryOp b a1 a2 =>
      cases h1 : transform_operand span s a1 with
      | none =>
          simp only [transform_rvalue, h1] at h
          exact Option.noConfusion h
      | some r1 =>
          cases h2 : transform_operand span r1.2 a2 with
          | none =>
              simp only [transform_rvalue, h1, h2] at h
              exact Option.noConfusion h
          | some r2 =>
              simp only [transform_rvalue, h1, h2, Option.some.injEq] at h
              have ih1 := transform_operand_good span s a1 r1 h1 hs
              have ih2 := transform_operand_good span r1.2 a2 r2 h2 ih1.2
              rw [← h]
              refine ⟨?_, ih2.2⟩
              intro o ho
              simp [Rvalue.operands] at ho
              rcases ho with h3 | h3
              · rw [h3]
                exact ih1.1
              · rw [h3]
                exact ih2.1
  | Aggregate k ops =>
      cases h1 : transform_operands_list span s ops with
      | none =>
          simp only [transform_rvalue, h1] at h
          exact Option.noConfusion h
      | some r =>
          simp only [transform_rvalue, h1, Option.some.injEq] at h
          have ih := transform_operands_list_good span ops s r h1 hs
          rw [← h]
          exact ⟨by simpa [Rvalue.operands] using ih.1, ih.2⟩
  | Repeat op ty len =>
      cases h1 : transform_operand span s op with
      | none =>
          simp only [transform_rvalue, h1] at h
          exact Option.noConfusion h
      | some r =>
          simp only [transform_rvalue, h1, Option.some.injEq] at h
          have ih := transform_operand_good span s op r h1 hs
          rw [← h]
          exact ⟨by simpa [Rvalue.operands] using ih.1, ih.2⟩
  | Ref p bk =>
      simp only [transform_rvalue, Option.some.injEq] at h
      rw [← h]
      exact ⟨by simp [Rvalue.operands], hs⟩
  | RawPtr p k =>
      simp only [transform_rvalue, Option.some.injEq] at h
      rw [← h]
      exact ⟨by simp [Rvalue.operands], hs⟩
  | Global g =>
      simp only [transform_rvalue, Option.some.injEq] at h
      rw [← h]
      exact ⟨by simp [Rvalue.operands], hs⟩
  | GlobalRef g k =>
      simp only [transform_rvalue, Option.some.injEq] at h
      rw [← h]
      exact ⟨by simp [Rvalue.operands], hs⟩

theorem transform_statement_content_good (span : Span) (s : ConstState)
    (content : ULLBC.RawStatement) (res : ULLBC.RawStatement × ConstState)
    (h : transform_statement_content span s content = some res)
    (hs : ∀ st ∈ s.nst, st.normalized = true) :
    (∀ op ∈ res.1.operands, op.normalized = true) ∧
      ∀ st ∈ res.2.nst, st.normalized = true := by
  cases content with
  | Assign dest rv =>
      cases h1 : transform_rvalue span s rv with
      | none =>
          simp only [transform_statement_content, h1] at h
          exact Option.noConfusion h
      | some r =>
          simp only [transform_statement_content, h1, Option.some.injEq] at h
          have ih := transform_rvalue_good span s rv r h1 hs
          rw [← h]
          exact ⟨by simpa [ULLBC.RawStatement.operands] using ih.1, ih.2⟩
  | Call c =>
      cases h1 : transform_operands_list span s c.args with
      | none =>
          simp only [transform_statement_content, h1] at h
          exact Option.noConfusion h
      | some r =>
          simp only [transform_statement_content, h1, Option.some.injEq] at h
          have ih := transform_operands_list_good span c.args s r h1 hs
          rw [← h]
          exact ⟨by simpa [ULLBC.RawStatement.operands] using ih.1, ih.2⟩
  | Assert a =>
      cases h1 : transform_operand span s a.cond with
      | none =>
          simp only [transform_statement_content, h1] at h
          exact Option.noConfusion h
      | some r =>
          simp only [transform_statement_content, h1, Option.some.injEq] at h
          have ih := transform_operand_good span s a.cond r h1 hs
          rw [← h]
          refine ⟨?_, ih.2⟩
          intro o ho
          simp [ULLBC.RawStatement.operands] at ho
          rw [ho]
          exact ih.1
  | FakeRead p =>
      simp only [transform_statement_content, Option.some.injEq] at h
      rw [← h]
      exact ⟨by simp [ULLBC.RawStatement.operands], hs⟩
  | SetDiscriminant p variant =>
      simp only [transform_statement_content, Option.some.injEq] at h
      rw [← h]
      exact ⟨by simp [ULLBC.RawStatement.operands], hs⟩
  | StorageDead v =>
      simp only [transform_statement_content, Option.some.injEq] at h
      rw [← h]
      exact ⟨by simp [ULLBC.RawStatement.operands], hs⟩
  | Deinit p =>
      simp only [transform_statement_content, Option.some.injEq] at h
      rw [← h]
      exact ⟨by simp [ULLBC.RawStatement.operands], hs⟩
  | Nop =>
      simp only [transform_statement_content, Option.some.injEq] at h
      rw [← h]
      exact ⟨by simp [ULLBC.RawStatement.operands], hs⟩

theorem transform_terminator_content_good (span : Span) (s : ConstState)
    (content : ULLBC.RawTerminator) (res : ULLBC.RawTerminator × ConstState)
    (h : transform_terminator_content span s content = some res)
    (hs : ∀ st ∈ s.nst, st.normalized = true) :
    (∀ op ∈ res.1.operands, op.normalized = true) ∧
      ∀ st ∈ res.2.nst, st.normalized = true := by
  cases content with
  | Switch discr targets =>
      cases h1 : transform_operand span s discr with
      | none =>
          simp only [transform_terminator_content, h1] at h
          exact Option.noConfusion h
      | some r =>
          simp only [transform_terminator_content, h1, Option.some.injEq] at h
          have ih := transform_operand_good span s discr r h1 hs
          rw [← h]
          refine ⟨?_, ih.2⟩
          intro o ho
          simp [ULLBC.RawTerminator.operands] at ho
          rw [ho]
          exact ih.1
  | Goto target =>
      simp only [transform_terminator_content, Option.some.injEq] at h
      rw [← h]
      exact ⟨by simp [ULLBC.RawTerminator.operands], hs⟩
  | Abort k =>
      simp only [transform_terminator_content, Option.some.injEq] at h
      rw [← h]
      exact ⟨by simp [ULLBC.RawTerminator.operands], hs⟩
  | Return =>
      simp only [transform_terminator_content, Option.some.injEq] at h
      rw [← h]
      exact ⟨by simp [ULLBC.RawTerminator.operands], hs⟩

theorem transform_statements_good :
    ∀ (sts : List ULLBC.Statement) (locals : Locals)
      (nst : List ULLBC.Statement) (res : Locals × List ULLBC.Statement),
      transform_statements locals nst sts = some res →
      (∀ st ∈ nst, st.normalized = true) →
      ∀ st ∈ res.2, st.normalized = true
  | [], locals, nst, res, h, hs => by
      simp only [transform_statements, Option.some.injEq] at h
      rw [← h]
      exact hs
  | st :: rest, locals, nst, res, h, hs => by
      cases h1 : transform_statement_content st.span ⟨locals, nst⟩ st.content with
      | none =>
          simp only [transform_statements, h1] at h
          exact Option.noConfusion h
      | some r =>
          simp only [transform_statements, h1] at h
          have ih1 := transform_statement_content_good st.span ⟨locals, nst⟩
            st.content r h1 hs
          refine transform_statements_good rest r.2.locals
            (r.2.nst ++ [⟨st.span, r.1, st.comments_before⟩]) res h ?_
          intro x hx
          rcases List.mem_append.mp hx with h2 | h2
          · exact ih1.2 x h2
          · have h3 : x = (⟨st.span, r.1, st.comments_before⟩ : ULLBC.Statement) := by
              simpa using h2
            rw [h3]
            simpa [ULLBC.Statement.normalized, List.all_eq_true] using ih1.1

theorem transform_block_good (locals : Locals) (b : ULLBC.BlockData)
    (res : Locals × ULLBC.BlockData) (h : transform_block locals b = some res) :
    res.2.normalized = true := by
  cases h1 : transform_statements locals [] b.statements with
  | none =>
      simp only [transform_block, h1] at h
      exact Option.noConfusion h
  | some r =>
      cases h2 : transform_terminator_content b.terminator.span ⟨r.1, r.2⟩
          b.terminator.content with
      | none =>
          simp only [transform_block, h1, h2] at h
          exact Option.noConfusion h
      | some rt =>
          simp only [transform_block, h1, h2, Option.some.injEq] at h
          have ihs := transform_statements_good b.statements locals [] r h1
            (by simp)
          have iht := transform_terminator_content_good b.terminator.span
            ⟨r.1, r.2⟩ b.terminator.content rt h2 ihs
          rw [← h]
          simp only [ULLBC.BlockData.normalized, Bool.and_eq_true,
            List.all_eq_true]
          constructor
          · intro x hx
            exact iht.2 x hx
          · simpa [ULLBC.Terminator.normalized, List.all_eq_true] using iht.1

theorem transform_blocks_good :
    ∀ (bs : List ULLBC.BlockData) (locals : Locals)
      (res : Locals × List ULLBC.BlockData),
      transform_blocks locals bs = some res →
      ∀ b ∈ res.2, b.normalized = true
  | [], locals, res, h => by
      simp only [transform_blocks, Option.some.injEq] at h
      rw [← h]
      simp
  | b :: rest, locals, res, h => by
      cases h1 : transform_block locals b with
      | none =>
          simp only [transform_blocks, h1] at h
          exact Option.noConfusion h
      | some r =>
          cases h2 : transform_blocks r.1 rest with
          | none =>
              simp only [transform_blocks, h1, h2] at h
              exact Option.noConfusion h
          | some r2 =>
              simp only [transform_blocks, h1, h2, Option.some.injEq] at h
              have ih1 := transform_block_good locals b r h1
              have ih2 := transform_blocks_good rest r.1 r2 h2
              rw [← h]
              intro x hx
              rcases List.mem_cons.mp hx with h3 | h3
              · rw [h3]
                exact ih1
              · exact ih2 x h3

theorem transform_body_good (body body2 : ULLBC.ExprBody)
    (h : transform_body body = some body2) : body2.normalized = true := by
  cases h1 : transform_blocks body.locals body.body with
  | none =>
      simp only [transform_body, h1] at h
      exact Option.noConfusion h
  | some r =>
      simp only [transform_body, h1, Option.some.injEq] at h
      have := transform_blocks_good body.body body.locals r h1
      rw [← h]
      simpa [ULLBC.ExprBody.normalized, List.all_eq_true] using this

end SimplifyConstants

/-! ## Claim theorems -/

/-- C9: in the derived total order on `TraitInstanceId`, the `SelfId` variant
compares strictly greater than every `Clause`, `ParentClause` and
`ItemClause` value, so sorting sibling clause identifiers always places
`Self` after all local-clause and clause-projection paths. -/
theorem selfId_sorts_after_clause_paths (t : TraitInstanceId)
    (h : t.isClausePath = true) :
    TraitInstanceId.cmp .SelfId t = .gt ∧ TraitInstanceId.cmp t .SelfId = .lt := by
  cases t <;> simp [TraitInstanceId.isClausePath] at h <;> exact ⟨rfl, rfl⟩

/-- Witness for C9 at the local clause `Clause 0`. -/
theorem selfId_sorts_after_clause_paths_witness :
    TraitInstanceId.cmp .SelfId (.Clause 0) = .gt ∧
      TraitInstanceId.cmp (.Clause 0) .SelfId = .lt :=
  selfId_sorts_after_clause_paths (.Clause 0) rfl

/-- C2: at each visited index `i`, an insertion request `(k, new)` splices
`new` at absolute position `i + k` of the statement list as it stands after
the rewrite function ran (the rewritten suffix `sfx` glued below `i`); when
several pairs are requested, they are sorted and applied highest offset
first, so both land at their absolute positions in the pre-insertion list. -/
theorem transform_sequences_splices_at_absolute_offsets {α : Type}
    (f : List α → List α × List (Nat × List α)) (l : List α) (i : Nat)
    (hi : i ≤ l.length) :
    (∀ sfx k new, f (l.drop i) = (sfx, [(k, new)]) →
        tsStep f i l = spliceAt (i + k) new (l.take i ++ sfx)) ∧
    (∀ sfx k1 new1 k2 new2, f (l.drop i) = (sfx, [(k2, new2), (k1, new1)]) →
        k1 < k2 → k2 ≤ sfx.length →
        tsStep f i l =
          (l.take i ++ sfx).take (i + k1) ++ new1 ++
            (((l.take i ++ sfx).drop (i + k1)).take (k2 - k1)) ++ new2 ++
            (l.take i ++ sfx).drop (i + k2)) := by
  constructor
  · intro sfx k new hfeq
    simp [tsStep, hfeq, applyInserts, sortByKey, insertByKey]
  · intro sfx k1 new1 k2 new2 hfeq h12 hk2
    have hsort : sortByKey [(k2, new2), (k1, new1)] = [(k1, new1), (k2, new2)] := by
      simp [sortByKey, insertByKey, Nat.not_le.mpr h12]
    have hbase : i + k2 ≤ (l.take i ++ sfx).length := by
      simp [List.length_take]
      omega
    simp only [tsStep, hfeq, applyInserts, hsort, List.reverse_cons,
      List.reverse_nil, List.nil_append, List.cons_append, List.foldl_cons,
      List.foldl_nil]
    rw [spliceAt_spliceAt (i + k1) (i + k2) new1 new2 _ (by omega) hbase]
    have : i + k2 - (i + k1) = k2 - k1 := by omega
    rw [this]

/-- Witness for C2: two insertion requests `(2, [99])` and `(1, [88])` on the
suffix starting at index 1 of `[5, 6, 7]` land at absolute positions 3 and 2. -/
theorem transform_sequences_splices_witness :
    tsStep (fun s => (s, [(2, [99]), (1, [88])])) 1 [5, 6, 7] = [5, 6, 88, 7, 99] := by
  rw [(transform_sequences_splices_at_absolute_offsets
      (fun s => (s, [(2, [99]), (1, [88])])) [5, 6, 7] 1 (by decide)).2
      [6, 7] 1 [88] 2 [99] rfl (by decide) (by decide)]
  rfl

/-- C3: provided the rewrite function leaves the suffix length unchanged
(mutation through `&mut [Statement]` cannot resize it),
`transform_sequences` calls it exactly once per statement index that existed
at the start of the traversal, in reverse order, and the head of the suffix
passed at the n-th call is the statement originally at index `len - 1 - n` —
never a statement inserted during the same traversal. -/
theorem transform_sequences_visits_original_indices_once {α : Type}
    (f : List α → List α × List (Nat × List α))
    (hf : ∀ s, (f s).1.length = s.length) (l : List α) :
    (tsCalls f l.length l).length = l.length ∧
    ∀ n, n < l.length →
      ((tsCalls f l.length l)[n]?.bind List.head?) = l[l.length - 1 - n]? :=
  tsCalls_spec f hf l l.length l (le_refl _) rfl

/-- Witness for C3 with an inserting rewrite function on `[5, 6, 7]`: three
calls, whose suffix heads are statements 7, 6, 5 in that order. -/
theorem transform_sequences_visits_witness :
    (tsCalls (fun s => (s, [(0, [99])])) 3 [5, 6, 7]).length = 3 ∧
      ((tsCalls (fun s => (s, [(0, [99])])) 3 [5, 6, 7])[1]?.bind List.head?) =
        some 6 :=
  ⟨(transform_sequences_visits_original_indices_once
      (fun s => (s, [(0, [99])])) (fun _ => rfl) [5, 6, 7]).1,
   (transform_sequences_visits_original_indices_once
      (fun s => (s, [(0, [99])])) (fun _ => rfl) [5, 6, 7]).2 1 (by decide)⟩

/-! ## Properties of the bottom-up statement rewrite (`BlockData::transform`) -/

theorem applyInserts_nil {α : Type} (i : Nat) (l : List α) :
    applyInserts i ([] : List (Nat × List α)) l = l := rfl

theorem applyInserts_single {α : Type} (i k : Nat) (new l : List α) :
    applyInserts i [(k, new)] l = spliceAt (i + k) new l := rfl

theorem tsStep_wrap_noop {α : Type} (f : α → α × List α) (n : Nat) (l : List α)
    (hx : ∀ h : n < l.length, f (l.get ⟨n, h⟩) = (l.get ⟨n, h⟩, [])) :
    tsStep (transform_wrap f) n l = l := by
  by_cases hn : n < l.length
  · have hdrop : l.drop n = l.get ⟨n, hn⟩ :: l.drop (n + 1) := by
      rw [List.drop_eq_getElem_cons hn]
      rfl
    simp only [tsStep, hdrop, transform_wrap, hx hn, List.isEmpty_nil, if_true,
      applyInserts_nil]
    rw [← hdrop, List.take_append_drop]
  · have hdrop : l.drop n = [] := List.drop_eq_nil_of_le (by omega)
    simp only [tsStep, hdrop, transform_wrap, applyInserts_nil, List.append_nil]
    exact List.take_of_length_le (by omega)

theorem tsLoop_wrap_noop {α : Type} (f : α → α × List α) :
    ∀ (n : Nat) (l : List α), (∀ x ∈ l.take n, f x = (x, [])) →
      tsLoop (transform_wrap f) n l = l
  | 0, l, _ => rfl
  | n + 1, l, hx => by
      have hstep : tsStep (transform_wrap f) n l = l := by
        apply tsStep_wrap_noop
        intro hn
        apply hx
        have h0 : n < (l.take (n + 1)).length := by
          simp [List.length_take]
          omega
        have h1 : (l.take (n + 1)).get ⟨n, h0⟩ = l.get ⟨n, hn⟩ := by
          simp
        rw [← h1]
        exact List.get_mem _ _ _
      have hx2 : ∀ x ∈ l.take n, f x = (x, []) := by
        intro x hmem
        apply hx
        have h1 : l.take n = (l.take (n + 1)).take n := by
          rw [List.take_take]
          congr 1
          omega
        rw [h1] at hmem
        exact List.take_subset _ _ hmem
      simp only [tsLoop, hstep]
      exact tsLoop_wrap_noop f n l hx2

theorem tsLoop_wrap_noop_above {α : Type} (f : α → α × List α) :
    ∀ (k m : Nat) (l : List α), (∀ x ∈ l.drop m, f x = (x, [])) →
      tsLoop (transform_wrap f) (m + k) l = tsLoop (transform_wrap f) m l
  | 0, _, _, _ => rfl
  | k + 1, m, l, hx => by
      have hstep : tsStep (transform_wrap f) (m + k) l = l := by
        apply tsStep_wrap_noop
        intro hn
        apply hx
        have h0 : k < (l.drop m).length := by
          simp [List.length_drop]
          omega
        have h1 : (l.drop m).get ⟨k, h0⟩ = l.get ⟨m + k, hn⟩ := by
          simp [List.getElem_drop]
        rw [← h1]
        exact List.get_mem _ _ _
      have h2 : m + (k + 1) = (m + k) + 1 := by omega
      rw [h2]
      simp only [tsLoop, hstep]
      exact tsLoop_wrap_noop_above f k m l hx

/-- What `BlockData::transform` does to a statement list `pre ++ st :: post`
when the rewrite function leaves every element of `pre` and `post` unchanged
and rewrites `st` to `st2` while requesting insertion of `new` before it. -/
theorem transform_splice_at_element {α : Type} (f : α → α × List α)
    (pre post new : List α) (st st2 : α)
    (hpre : ∀ x ∈ pre, f x = (x, []))
    (hpost : ∀ x ∈ post, f x = (x, []))
    (hst : f st = (st2, new)) :
    transform f (pre ++ st :: post) = pre ++ new ++ st2 :: post := by
  unfold transform transform_sequences
  have hlen : (pre ++ st :: post).length = (pre.length + 1) + post.length := by
    simp
    omega
  have hdropped : ∀ x ∈ (pre ++ st :: post).drop (pre.length + 1), f x = (x, []) := by
    intro x hmem
    apply hpost
    have h1 : pre ++ st :: post = (pre ++ [st]) ++ post := by simp
    have h2 : (pre ++ st :: post).drop (pre.length + 1) = post := by
      rw [h1]
      have h3 : pre.length + 1 = (pre ++ [st]).length := by simp
      rw [h3, List.drop_left]
    rwa [h2] at hmem
  rw [hlen, tsLoop_wrap_noop_above f post.length (pre.length + 1) _ hdropped]
  have hstep : tsStep (transform_wrap f) pre.length (pre ++ st :: post) =
      pre ++ new ++ st2 :: post := by
    have hdrop : (pre ++ st :: post).drop pre.length = st :: post :=
      List.drop_left pre (st :: post)
    have htake : (pre ++ st :: post).take pre.length = pre :=
      List.take_left pre (st :: post)
    simp only [tsStep, hdrop, transform_wrap, hst]
    by_cases hnew : new = []
    · subst hnew
      simp only [List.isEmpty_nil, if_true, applyInserts_nil, htake]
      simp
    · rw [if_neg (by simpa using hnew), applyInserts_single]
      simp only [spliceAt, htake]
      have h4 : (pre ++ st2 :: post).take (pre.length + 0) = pre := by
        simp [List.take_left]
      have h5 : (pre ++ st2 :: post).drop (pre.length + 0) = st2 :: post := by
        simp [List.drop_left]
      rw [h4, h5]
  simp only [tsLoop, hstep]
  apply tsLoop_wrap_noop
  intro x hmem
  apply hpre
  have h6 : (pre ++ new ++ st2 :: post).take pre.length = pre := by
    rw [List.append_assoc, List.take_append_of_le_length (by simp),
      List.take_length]
  rwa [h6] at hmem

/-! ## Properties of the assert-reconstruction rewrite -/

theorem transform_st_of_not_fires (st : LLBC.Statement)
    (h : ReconstructAsserts.rewrite_fires st = false) :
    ReconstructAsserts.transform_st st = (st, []) := by
  cases st with
  | mk sp content comments =>
    cases content with
    | Switch s =>
        cases s with
        | If op tb eb =>
            simp only [ReconstructAsserts.rewrite_fires] at h
            cases hd : tb.statements.head? with
            | none => simp [ReconstructAsserts.transform_st, hd]
            | some first =>
                rw [hd] at h
                have h2 : first.content.is_abort = false := h
                simp only [ReconstructAsserts.transform_st, hd, h2]
                simp
        | SwitchInt discr ity targets otherwise =>
            simp [ReconstructAsserts.transform_st]
    | Assign dest rv => simp [ReconstructAsserts.transform_st]
    | Call c => simp [ReconstructAsserts.transform_st]
    | Assert a => simp [ReconstructAsserts.transform_st]
    | Abort k => simp [ReconstructAsserts.transform_st]
    | Return => simp [ReconstructAsserts.transform_st]
    | Break d => simp [ReconstructAsserts.transform_st]
    | Continue d => simp [ReconstructAsserts.transform_st]
    | Nop => simp [ReconstructAsserts.transform_st]
    | Loop b => simp [ReconstructAsserts.transform_st]

theorem transform_st_of_fires (sp spThen spElse : Span) (comments : List String)
    (cond : Operand) (first : LLBC.Statement) (rest elseStmts : List LLBC.Statement)
    (hfirst : first.content.is_abort = true) :
    ReconstructAsserts.transform_st
        (LLBC.Statement.mk sp
          (.Switch (.If cond (LLBC.Block.mk spThen (first :: rest))
            (LLBC.Block.mk spElse elseStmts))) comments) =
      (LLBC.Statement.mk sp .Nop comments,
       LLBC.Statement.new spThen (.Assert ⟨cond, false⟩) :: elseStmts) := by
  simp [ReconstructAsserts.transform_st, LLBC.Block.statements, LLBC.Block.span,
    hfirst]

theorem transform_st_id_iff_not_fires (st : LLBC.Statement) :
    ReconstructAsserts.transform_st st = (st, []) ↔
      ReconstructAsserts.rewrite_fires st = false := by
  constructor
  · intro heq
    by_contra hne
    have hfire : ReconstructAsserts.rewrite_fires st = true := by
      cases hf : ReconstructAsserts.rewrite_fires st
      · exact absurd hf hne
      · rfl
    cases st with
    | mk sp content comments =>
      cases content with
      | Switch s =>
          cases s with
          | If op tb eb =>
              cases tb with
              | mk spThen tbs =>
                cases tbs with
                | nil => simp [ReconstructAsserts.rewrite_fires,
                    LLBC.Block.statements] at hfire
                | cons first rest =>
                  simp only [ReconstructAsserts.rewrite_fires,
                    LLBC.Block.statements, List.head?_cons] at hfire
                  cases eb with
                  | mk spElse ebs =>
                    rw [transform_st_of_fires sp spThen spElse comments op first
                      rest ebs hfire] at heq
                    have := congrArg (fun p => p.1) heq
                    simp at this
          | SwitchInt discr ity targets otherwise =>
              simp [ReconstructAsserts.rewrite_fires] at hfire
      | Assign dest rv => simp [ReconstructAsserts.rewrite_fires] at hfire
      | Call c => simp [ReconstructAsserts.rewrite_fires] at hfire
      | Assert a => simp [ReconstructAsserts.rewrite_fires] at hfire
      | Abort k => simp [ReconstructAsserts.rewrite_fires] at hfire
      | Return => simp [ReconstructAsserts.rewrite_fires] at hfire
      | Break d => simp [ReconstructAsserts.rewrite_fires] at hfire
      | Continue d => simp [ReconstructAsserts.rewrite_fires] at hfire
      | Nop => simp [ReconstructAsserts.rewrite_fires] at hfire
      | Loop b => simp [ReconstructAsserts.rewrite_fires] at hfire
  · exact transform_st_of_not_fires st

/-- C10: when the assert-reconstruction rewrite fires on an `if` statement,
the original statement is replaced in place by a `Nop` that sits after the
inserted `Assert` and after all else-branch statements, and every
then-branch statement after the leading abort (`rest`) is discarded: the
output around the rewritten position is exactly
`Assert :: elseStmts ++ [Nop]`, independently of `rest`. -/
theorem reconstruct_asserts_nop_placement
    (pre post rest elseStmts : List LLBC.Statement)
    (sp spThen spElse : Span) (comments : List String) (cond : Operand)
    (first : LLBC.Statement)
    (hfirst : first.content.is_abort = true)
    (hpre : ∀ x ∈ pre, ReconstructAsserts.rewrite_fires x = false)
    (hpost : ∀ x ∈ post, ReconstructAsserts.rewrite_fires x = false) :
    transform ReconstructAsserts.transform_st
        (pre ++ LLBC.Statement.mk sp
          (.Switch (.If cond (LLBC.Block.mk spThen (first :: rest))
            (LLBC.Block.mk spElse elseStmts))) comments :: post) =
      pre ++ (LLBC.Statement.new spThen (.Assert ⟨cond, false⟩) :: elseStmts)
        ++ LLBC.Statement.mk sp .Nop comments :: post := by
  have h := transform_splice_at_element ReconstructAsserts.transform_st pre post
    (LLBC.Statement.new spThen (.Assert ⟨cond, false⟩) :: elseStmts)
    (LLBC.Statement.mk sp
      (.Switch (.If cond (LLBC.Block.mk spThen (first :: rest))
        (LLBC.Block.mk spElse elseStmts))) comments)
    (LLBC.Statement.mk sp .Nop comments)
    (fun x hx => transform_st_of_not_fires x (hpre x hx))
    (fun x hx => transform_st_of_not_fires x (hpost x hx))
    (transform_st_of_fires sp spThen spElse comments cond first rest elseStmts hfirst)
  simpa using h

/-- Witness for C10: a concrete block `[s0, if cond { abort; s_dead } else
{ s1 }, s2]`; the `Nop` lands after the assert and the else statement, and
the dead then-branch tail is gone. -/
theorem reconstruct_asserts_nop_placement_witness :
    transform ReconstructAsserts.transform_st
        [LLBC.Statement.new 10 .Return,
         LLBC.Statement.mk 0
           (.Switch (.If (.Copy ⟨0, []⟩)
             (LLBC.Block.mk 1 [LLBC.Statement.new 2 (.Abort (.Panic [])),
               LLBC.Statement.new 3 .Nop])
             (LLBC.Block.mk 4 [LLBC.Statement.new 5 .Return]))) [],
         LLBC.Statement.new 11 .Nop] =
      [LLBC.Statement.new 10 .Return,
       LLBC.Statement.new 1 (.Assert ⟨.Copy ⟨0, []⟩, false⟩),
       LLBC.Statement.new 5 .Return,
       LLBC.Statement.mk 0 .Nop [],
       LLBC.Statement.new 11 .Nop] := by
  have h := reconstruct_asserts_nop_placement
    [LLBC.Statement.new 10 .Return] [LLBC.Statement.new 11 .Nop]
    [LLBC.Statement.new 3 .Nop] [LLBC.Statement.new 5 .Return]
    0 1 4 [] (.Copy ⟨0, []⟩) (LLBC.Statement.new 2 (.Abort (.Panic [])))
    rfl
    (by intro x hx; simp at hx; subst hx; rfl)
    (by intro x hx; simp at hx; subst hx; rfl)
  simpa using h

/-- C4 (amended): the rewrite fires precisely when the first statement of the
then-branch is an abort, and firing on `if cond { abort; ... } else { s1; s2 }`
replaces the statement by the sequence `[Assert{cond, expected=false}, s1, s2,
Nop]`: the assert and the else-branch statements are inserted before the
original statement, which is replaced in place by a `Nop` rather than being
removed. -/
theorem reconstruct_asserts_rewrite
    (sp spThen spElse : Span) (comments : List String) (cond : Operand)
    (first s1 s2 : LLBC.Statement) (rest : List LLBC.Statement)
    (hfirst : first.content.is_abort = true) :
    (∀ st, ReconstructAsserts.transform_st st = (st, []) ↔
        ReconstructAsserts.rewrite_fires st = false) ∧
    transform ReconstructAsserts.transform_st
        [LLBC.Statement.mk sp
          (.Switch (.If cond (LLBC.Block.mk spThen (first :: rest))
            (LLBC.Block.mk spElse [s1, s2]))) comments] =
      [LLBC.Statement.new spThen (.Assert ⟨cond, false⟩), s1, s2,
       LLBC.Statement.mk sp .Nop comments] := by
  constructor
  · exact transform_st_id_iff_not_fires
  · have h := transform_splice_at_element ReconstructAsserts.transform_st [] []
      (LLBC.Statement.new spThen (.Assert ⟨cond, false⟩) :: [s1, s2])
      (LLBC.Statement.mk sp
        (.Switch (.If cond (LLBC.Block.mk spThen (first :: rest))
          (LLBC.Block.mk spElse [s1, s2]))) comments)
      (LLBC.Statement.mk sp .Nop comments)
      (by intro x hx; simp at hx)
      (by intro x hx; simp at hx)
      (transform_st_of_fires sp spThen spElse comments cond first rest [s1, s2] hfirst)
    simpa using h

/-- Witness for C4's amended theorem at a concrete statement. -/
theorem reconstruct_asserts_rewrite_witness :
    transform ReconstructAsserts.transform_st
        [LLBC.Statement.mk 0
          (.Switch (.If (.Copy ⟨0, []⟩)
            (LLBC.Block.mk 1 [LLBC.Statement.new 2 (.Abort (.Panic []))])
            (LLBC.Block.mk 3 [LLBC.Statement.new 4 .Nop,
              LLBC.Statement.new 5 .Return]))) []] =
      [LLBC.Statement.new 1 (.Assert ⟨.Copy ⟨0, []⟩, false⟩),
       LLBC.Statement.new 4 .Nop, LLBC.Statement.new 5 .Return,
       LLBC.Statement.mk 0 .Nop []] :=
  (reconstruct_asserts_rewrite 0 1 3 [] (.Copy ⟨0, []⟩)
    (LLBC.Statement.new 2 (.Abort (.Panic []))) (LLBC.Statement.new 4 .Nop)
    (LLBC.Statement.new 5 .Return) [] rfl).2

/-- Counterexample to C4 as stated: on the block
`[if cond { abort } else { s1; s2 }]` the pass does not produce exactly
`[Assert{cond, expected=false}, s1, s2]` — a `Nop` replacing the original
`if` remains at the end. -/
theorem reconstruct_asserts_rewrite_cex :
    transform ReconstructAsserts.transform_st
        [LLBC.Statement.mk 0
          (.Switch (.If (.Copy ⟨0, []⟩)
            (LLBC.Block.mk 1 [LLBC.Statement.new 2 (.Abort (.Panic []))])
            (LLBC.Block.mk 3 [LLBC.Statement.new 4 .Nop,
              LLBC.Statement.new 5 .Return]))) []] ≠
      [LLBC.Statement.new 1 (.Assert ⟨.Copy ⟨0, []⟩, false⟩),
       LLBC.Statement.new 4 .Nop, LLBC.Statement.new 5 .Return] := by
  intro h
  have hlen := congrArg List.length h
  have hval : (transform ReconstructAsserts.transform_st
      [LLBC.Statement.mk 0
        (.Switch (.If (.Copy ⟨0, []⟩)
          (LLBC.Block.mk 1 [LLBC.Statement.new 2 (.Abort (.Panic []))])
          (LLBC.Block.mk 3 [LLBC.Statement.new 4 .Nop,
            LLBC.Statement.new 5 .Return]))) []]).length = 4 := rfl
  rw [hval] at hlen
  simp at hlen

/-- C5: a declaration qualifies as a panic shim exactly when its successfully
extracted body is one single statement aborting with the canonical
explicit-panic symbol; after the pass, qualifying declarations are removed
from the declaration set, declarations with an unavailable body never
qualify and survive unchanged, surviving declarations keep their body with
every regular call to a qualifying declaration rewritten to the canonical
`Abort(Panic)` statement, and no such call remains anywhere. -/
theorem inline_panic_pass_spec (ctx : InlinePanic.TransformCtx)
    (hnd : (ctx.fun_decls.map InlinePanic.FunDecl.def_id).Nodup) :
    (∀ d : InlinePanic.FunDecl, InlinePanic.is_panic_shim d = true ↔
        ∃ bsp ssp cm, d.body = some (LLBC.Block.mk bsp
          [LLBC.Statement.mk ssp
            (.Abort (.Panic InlinePanic.EXPLICIT_PANIC_NAME)) cm])) ∧
    (∀ d ∈ ctx.fun_decls, d.body = none →
        InlinePanic.is_panic_shim d = false ∧
        d ∈ (InlinePanic.transform_ctx ctx).fun_decls) ∧
    (∀ d ∈ ctx.fun_decls, InlinePanic.is_panic_shim d = true →
        ∀ d2 ∈ (InlinePanic.transform_ctx ctx).fun_decls, d2.def_id ≠ d.def_id) ∧
    (∀ d ∈ ctx.fun_decls, InlinePanic.is_panic_shim d = false →
        ∀ b, d.body = some b →
        (⟨d.def_id, some (InlinePanic.replace_block
            (InlinePanic.collect_panic_fns ctx) b)⟩ : InlinePanic.FunDecl) ∈
          (InlinePanic.transform_ctx ctx).fun_decls) ∧
    (∀ sp cm args dest g fid, fid ∈ InlinePanic.collect_panic_fns ctx →
        InlinePanic.replace_statement (InlinePanic.collect_panic_fns ctx)
          (LLBC.Statement.mk sp
            (.Call ⟨.Regular ⟨.Fun (.Regular fid), g⟩, args, dest⟩) cm) =
        LLBC.Statement.mk sp
          (.Abort (.Panic InlinePanic.EXPLICIT_PANIC_NAME)) cm) ∧
    (∀ b, InlinePanic.block_has_shim_call (InlinePanic.collect_panic_fns ctx)
        (InlinePanic.replace_block (InlinePanic.collect_panic_fns ctx) b) = false) := by
  have hshim_mem : ∀ d ∈ ctx.fun_decls, InlinePanic.is_panic_shim d = true →
      d.def_id ∈ InlinePanic.collect_panic_fns ctx := by
    intro d hd hs
    exact List.mem_map_of_mem _ (List.mem_filter.mpr ⟨hd, hs⟩)
  have hnotshim_notmem : ∀ d ∈ ctx.fun_decls, InlinePanic.is_panic_shim d = false →
      d.def_id ∉ InlinePanic.collect_panic_fns ctx := by
    intro d hd hs hmem
    obtain ⟨q, hq, hqid⟩ := List.mem_map.mp hmem
    have hq2 := List.mem_filter.mp hq
    have : q = d := List.inj_on_of_nodup_map hnd hq2.1 hd hqid
    rw [this] at hq2
    rw [hq2.2] at hs
    exact Bool.true_eq_false.mp hs
  refine ⟨?_, ?_, ?_, ?_, ?_, ?_⟩
  · intro d
    constructor
    · intro h
      cases d with
      | mk id body =>
        cases body with
        | none => simp [InlinePanic.is_panic_shim] at h
        | some b =>
          cases b with
          | mk bsp stmts =>
            match stmts with
            | [] => simp [InlinePanic.is_panic_shim] at h
            | st1 :: st2 :: restS => simp [InlinePanic.is_panic_shim] at h
            | [st1] =>
              cases st1 with
              | mk ssp content cm =>
                cases content with
                | Abort k =>
                    cases k with
                    | Panic name =>
                        have hname : name = InlinePanic.EXPLICIT_PANIC_NAME := by
                          simpa [InlinePanic.is_panic_shim,
                            InlinePanic.equals_ref_name, LLBC.Statement.content]
                            using h
                        exact ⟨bsp, ssp, cm, by rw [hname]⟩
                    | UndefinedBehavior =>
                        simp [InlinePanic.is_panic_shim, LLBC.Statement.content] at h
                | Assign dest rv =>
                    simp [InlinePanic.is_panic_shim, LLBC.Statement.content] at h
                | Call c =>
                    simp [InlinePanic.is_panic_shim, LLBC.Statement.content] at h
                | Assert a =>
                    simp [InlinePanic.is_panic_shim, LLBC.Statement.content] at h
                | Return =>
                    simp [InlinePanic.is_panic_shim, LLBC.Statement.content] at h
                | Break dep =>
                    simp [InlinePanic.is_panic_shim, LLBC.Statement.content] at h
                | Continue dep =>
                    simp [InlinePanic.is_panic_shim, LLBC.Statement.content] at h
                | Nop =>
                    simp [InlinePanic.is_panic_shim, LLBC.Statement.content] at h
                | Switch s =>
                    simp [InlinePanic.is_panic_shim, LLBC.Statement.content] at h
                | Loop lb =>
                    simp [InlinePanic.is_panic_shim, LLBC.Statement.content] at h
    · intro h
      obtain ⟨bsp, ssp, cm, heq⟩ := h
      cases d with
      | mk id body =>
        simp only at heq
        subst heq
        simp [InlinePanic.is_panic_shim, InlinePanic.equals_ref_name,
          LLBC.Statement.content]
  · intro d hd hnone
    have hshim : InlinePanic.is_panic_shim d = false := by
      cases d with
      | mk id body =>
        simp only at hnone
        subst hnone
        rfl
    refine ⟨hshim, ?_⟩
    apply List.mem_filter.mpr
    constructor
    · apply List.mem_map.mpr
      refine ⟨d, hd, ?_⟩
      simp [InlinePanic.replace_decl, hnone]
    · have := hnotshim_notmem d hd hshim
      simpa using this
  · intro d hd hs d2 hd2 hEq
    have hd2f := List.mem_filter.mp hd2
    have hnot : d2.def_id ∉ InlinePanic.collect_panic_fns ctx := by
      have := hd2f.2
      simpa using this
    exact hnot (hEq ▸ hshim_mem d hd hs)
  · intro d hd hs b hb
    apply List.mem_filter.mpr
    constructor
    · apply List.mem_map.mpr
      refine ⟨d, hd, ?_⟩
      cases d with
      | mk id body =>
        simp only at hb
        subst hb
        simp [InlinePanic.replace_decl]
    · have := hnotshim_notmem d hd hs
      simpa using this
  · intro sp cm args dest g fid hfid
    have hc : (InlinePanic.collect_panic_fns ctx).contains fid = true := by
      simpa using hfid
    simp [InlinePanic.replace_statement, hc, hfid]
  · intro b
    exact InlinePanic.replace_block_no_shim _ b

/-- The concrete three-declaration context used by the C5 witness: a panic
shim (id 0), a caller of it (id 1), and a declaration with an unavailable
body (id 2). -/
def inlinePanicExampleCtx : InlinePanic.TransformCtx :=
  ⟨[⟨0, some (LLBC.Block.mk 0 [LLBC.Statement.new 1
        (.Abort (.Panic ["core", "panicking", "panic_explicit"]))])⟩,
    ⟨1, some (LLBC.Block.mk 2 [LLBC.Statement.new 3
        (.Call ⟨.Regular ⟨.Fun (.Regular 0), .mk [] [] []⟩, [], ⟨0, []⟩⟩)])⟩,
    ⟨2, none⟩]⟩

/-- Witness for C5 on `inlinePanicExampleCtx`: the error-body declaration
survives the pass, and the call to the shim is rewritten to the canonical
abort. -/
theorem inline_panic_pass_spec_witness :
    ((⟨2, none⟩ : InlinePanic.FunDecl) ∈
        (InlinePanic.transform_ctx inlinePanicExampleCtx).fun_decls) ∧
    InlinePanic.replace_statement (InlinePanic.collect_panic_fns inlinePanicExampleCtx)
        (LLBC.Statement.mk 3
          (.Call ⟨.Regular ⟨.Fun (.Regular 0), .mk [] [] []⟩, [], ⟨0, []⟩⟩) []) =
      LLBC.Statement.mk 3 (.Abort (.Panic InlinePanic.EXPLICIT_PANIC_NAME)) [] :=
  ⟨((inline_panic_pass_spec inlinePanicExampleCtx (by decide)).2.1
      ⟨2, none⟩
      (List.mem_cons_of_mem _ (List.mem_cons_of_mem _ (List.mem_cons_self _ _)))
      rfl).2,
   (inline_panic_pass_spec inlinePanicExampleCtx (by decide)).2.2.2.2.1
      3 [] [] ⟨0, []⟩ (.mk [] [] []) 0
      (by rw [show InlinePanic.collect_panic_fns inlinePanicExampleCtx = [0] from rfl]
          exact List.mem_cons_self _ _)⟩

/-- C6: when constant normalization processes a constant array whose
recursively normalized elements are `fops`: with at least two elements all
equal it binds a `Repeat(value, count)` rvalue whose count is the number of
elements; with two differing elements it binds an `Aggregate` over the
element type; with zero or one element it always binds an `Aggregate`. -/
theorem constant_array_repeat_vs_aggregate (span : Span)
    (s s1 : SimplifyConstants.ConstState) (fields : List ConstantExpr)
    (fops : List Operand) (bi : BuiltinTy) (rs : List Region) (elt : Ty)
    (tys : List Ty) (cgs : List ConstGeneric)
    (hbi : bi = .Array ∨ bi = .Slice)
    (hlist : SimplifyConstants.transform_constant_expr_list span fields s =
      some (fops, s1)) :
    (∀ v, 2 ≤ fields.length → (∀ o ∈ fops, o = v) →
      ∃ p s2, SimplifyConstants.transform_constant_expr span
          (.mk (.Array fields) (.Adt (.Builtin bi) (.mk rs (elt :: tys) cgs))) s =
            some (.Move p, s2) ∧
        s2.nst = s1.nst ++ [ULLBC.Statement.new span (.Assign p
          (.Repeat v elt (.Value (.Scalar (.Usize fields.length)))))]) ∧
    ((∃ o1 ∈ fops, ∃ o2 ∈ fops, o1 ≠ o2) →
      ∃ p s2, SimplifyConstants.transform_constant_expr span
          (.mk (.Array fields) (.Adt (.Builtin bi) (.mk rs (elt :: tys) cgs))) s =
            some (.Move p, s2) ∧
        s2.nst = s1.nst ++ [ULLBC.Statement.new span (.Assign p
          (.Aggregate (.Array elt (.Value (.Scalar (.Usize fields.length))))
            fops))]) ∧
    (fields.length ≤ 1 →
      ∃ p s2, SimplifyConstants.transform_constant_expr span
          (.mk (.Array fields) (.Adt (.Builtin bi) (.mk rs (elt :: tys) cgs))) s =
            some (.Move p, s2) ∧
        s2.nst = s1.nst ++ [ULLBC.Statement.new span (.Assign p
          (.Aggregate (.Array elt (.Value (.Scalar (.Usize fields.length))))
            fops))]) := by
  have harm := SimplifyConstants.transform_array_arm span s fields (fops, s1)
    bi rs elt tys cgs hbi hlist
  have hlen : fops.length = fields.length :=
    SimplifyConstants.transform_constant_expr_list_length span fields s
      (fops, s1) hlist
  refine ⟨?_, ?_, ?_⟩
  · intro v h2 hall
    have h2f : 2 ≤ fops.length := by omega
    have hone : exactly_one (dedup fops) = some v :=
      (exactly_one_dedup_iff v fops).mpr
        ⟨by intro hnil; rw [hnil] at h2f; simp at h2f, hall⟩
    rw [if_pos h2f, hone] at harm
    refine ⟨⟨s1.locals.vars.length, []⟩,
      ⟨⟨s1.locals.arg_count, s1.locals.vars ++ [⟨s1.locals.vars.length, none,
          .Adt (.Builtin bi) (.mk rs (elt :: tys) cgs)⟩]⟩,
        s1.nst ++ [ULLBC.Statement.new span (.Assign ⟨s1.locals.vars.length, []⟩
          (.Repeat v elt (.Value (.Scalar (.Usize fields.length)))))]⟩, ?_, rfl⟩
    rw [harm]
    simp [SimplifyConstants.new_var, Locals.new_var, hlen]
  · intro hdiff
    obtain ⟨o1, ho1, o2, ho2, hne⟩ := hdiff
    have hnone : (if 2 ≤ fops.length then exactly_one (dedup fops) else none) =
        none := by
      by_cases h2f : 2 ≤ fops.length
      · rw [if_pos h2f]
        cases hone : exactly_one (dedup fops) with
        | none => rfl
        | some v =>
            have hall := ((exactly_one_dedup_iff v fops).mp hone).2
            exact absurd ((hall o1 ho1).trans (hall o2 ho2).symm) hne
      · rw [if_neg h2f]
    rw [hnone] at harm
    refine ⟨⟨s1.locals.vars.length, []⟩,
      ⟨⟨s1.locals.arg_count, s1.locals.vars ++ [⟨s1.locals.vars.length, none,
          .Adt (.Builtin bi) (.mk rs (elt :: tys) cgs)⟩]⟩,
        s1.nst ++ [ULLBC.Statement.new span (.Assign ⟨s1.locals.vars.length, []⟩
          (.Aggregate (.Array elt (.Value (.Scalar (.Usize fields.length))))
            fops))]⟩, ?_, rfl⟩
    rw [harm]
    simp [SimplifyConstants.new_var, Locals.new_var, hlen]
  · intro hshort
    have hnone : (if 2 ≤ fops.length then exactly_one (dedup fops) else none) =
        none := by
      rw [if_neg (by omega)]
    rw [hnone] at harm
    refine ⟨⟨s1.locals.vars.length, []⟩,
      ⟨⟨s1.locals.arg_count, s1.locals.vars ++ [⟨s1.locals.vars.length, none,
          .Adt (.Builtin bi) (.mk rs (elt :: tys) cgs)⟩]⟩,
        s1.nst ++ [ULLBC.Statement.new span (.Assign ⟨s1.locals.vars.length, []⟩
          (.Aggregate (.Array elt (.Value (.Scalar (.Usize fields.length))))
            fops))]⟩, ?_, rfl⟩
    rw [harm]
    simp [SimplifyConstants.new_var, Locals.new_var, hlen]

/-- Witness for C6: the two-element all-equal boolean array `[true, true]`
normalizes to a `Repeat` of count 2. -/
theorem constant_array_repeat_witness :
    ∃ p s2, SimplifyConstants.transform_constant_expr 0
        (.mk (.Array [.mk (.Literal (.Bool true)) (.Literal .Bool),
                      .mk (.Literal (.Bool true)) (.Literal .Bool)])
          (.Adt (.Builtin .Array) (.mk [] [.Literal .Bool] [])))
        ⟨⟨0, []⟩, []⟩ = some (.Move p, s2) ∧
      s2.nst = [] ++ [ULLBC.Statement.new 0 (.Assign p
        (.Repeat (.Const (.mk (.Literal (.Bool true)) (.Literal .Bool)))
          (.Literal .Bool) (.Value (.Scalar (.Usize 2)))))] :=
  (constant_array_repeat_vs_aggregate 0 ⟨⟨0, []⟩, []⟩ ⟨⟨0, []⟩, []⟩
      [.mk (.Literal (.Bool true)) (.Literal .Bool),
       .mk (.Literal (.Bool true)) (.Literal .Bool)]
      [.Const (.mk (.Literal (.Bool true)) (.Literal .Bool)),
       .Const (.mk (.Literal (.Bool true)) (.Literal .Bool))]
      .Array [] (.Literal .Bool) [] [] (Or.inl rfl) rfl).1
    (.Const (.mk (.Literal (.Bool true)) (.Literal .Bool)))
    (by decide)
    (by intro o ho; rcases List.mem_cons.mp ho with h | h
        · exact h
        · simpa using h)

/-- C8 (amended): a constant shared-reference-to-global (resp. constant
mutable-pointer-to-global) lowers to a single `GlobalRef` assignment of
shared (resp. mutable) kind, with no intermediate evaluate-then-borrow
statement. A reference (resp. mutable raw pointer) to a non-global constant
first recursively normalizes the inner value; if the normalized inner
operand is still a constant it is bound to a fresh temporary by a `Use`
statement and the borrow (resp. raw pointer) is taken over that temporary,
but if it normalized to a moved place no `Use` statement is emitted and the
borrow is taken directly over that place. -/
theorem constant_ref_normalization :
    (∀ (span : Span) (g : GlobalDeclRef) (bty ty : Ty)
        (s : SimplifyConstants.ConstState), ∃ p s2,
      SimplifyConstants.transform_constant_expr span
          (.mk (.Ref (.mk (.Global g) bty)) ty) s = some (.Move p, s2) ∧
        s2.nst = s.nst ++ [ULLBC.Statement.new span
          (.Assign p (.GlobalRef g .Shared))]) ∧
    (∀ (span : Span) (g : GlobalDeclRef) (bty ty : Ty)
        (s : SimplifyConstants.ConstState), ∃ p s2,
      SimplifyConstants.transform_constant_expr span
          (.mk (.MutPtr (.mk (.Global g) bty)) ty) s = some (.Move p, s2) ∧
        s2.nst = s.nst ++ [ULLBC.Statement.new span
          (.Assign p (.GlobalRef g .Mut))]) ∧
    (∀ (span : Span) (bv : RawConstantExpr) (bty ty : Ty)
        (s s1 : SimplifyConstants.ConstState) (c : ConstantExpr),
      (∀ g, bv ≠ RawConstantExpr.Global g) →
      SimplifyConstants.transform_constant_expr span (.mk bv bty) s =
        some (.Const c, s1) →
      ∃ tmp refv s3,
        SimplifyConstants.transform_constant_expr span
            (.mk (.Ref (.mk bv bty)) ty) s = some (.Move refv, s3) ∧
          s3.nst = s1.nst ++
            [ULLBC.Statement.new span (.Assign tmp (.Use (.Const c))),
             ULLBC.Statement.new span (.Assign refv (.Ref tmp .Shared))]) ∧
    (∀ (span : Span) (bv : RawConstantExpr) (bty ty : Ty)
        (s s1 : SimplifyConstants.ConstState) (p : Place),
      (∀ g, bv ≠ RawConstantExpr.Global g) →
      SimplifyConstants.transform_constant_expr span (.mk bv bty) s =
        some (.Move p, s1) →
      ∃ refv s3,
        SimplifyConstants.transform_constant_expr span
            (.mk (.Ref (.mk bv bty)) ty) s = some (.Move refv, s3) ∧
          s3.nst = s1.nst ++
            [ULLBC.Statement.new span (.Assign refv (.Ref p .Shared))]) ∧
    (∀ (span : Span) (bv : RawConstantExpr) (bty ty : Ty)
        (s s1 : SimplifyConstants.ConstState) (c : ConstantExpr),
      (∀ g, bv ≠ RawConstantExpr.Global g) →
      SimplifyConstants.transform_constant_expr span (.mk bv bty) s =
        some (.Const c, s1) →
      ∃ tmp refv s3,
        SimplifyConstants.transform_constant_expr span
            (.mk (.MutPtr (.mk bv bty)) ty) s = some (.Move refv, s3) ∧
          s3.nst = s1.nst ++
            [ULLBC.Statement.new span (.Assign tmp (.Use (.Const c))),
             ULLBC.Statement.new span (.Assign refv (.RawPtr tmp .Mut))]) ∧
    (∀ (span : Span) (bv : RawConstantExpr) (bty ty : Ty)
        (s s1 : SimplifyConstants.ConstState) (p : Place),
      (∀ g, bv ≠ RawConstantExpr.Global g) →
      SimplifyConstants.transform_constant_expr span (.mk bv bty) s =
        some (.Move p, s1) →
      ∃ refv s3,
        SimplifyConstants.transform_constant_expr span
            (.mk (.MutPtr (.mk bv bty)) ty) s = some (.Move refv, s3) ∧
          s3.nst = s1.nst ++
            [ULLBC.Statement.new span (.Assign refv (.RawPtr p .Mut))]) := by
  refine ⟨?_, ?_, ?_, ?_, ?_, ?_⟩
  · intro span g bty ty s
    refine ⟨⟨s.locals.vars.length, []⟩,
      ⟨⟨s.locals.arg_count, s.locals.vars ++ [⟨s.locals.vars.length, none, ty⟩]⟩,
        s.nst ++ [ULLBC.Statement.new span (.Assign ⟨s.locals.vars.length, []⟩
          (.GlobalRef g .Shared))]⟩, ?_, rfl⟩
    simp [SimplifyConstants.transform_constant_expr,
      SimplifyConstants.new_var, Locals.new_var]
  · intro span g bty ty s
    refine ⟨⟨s.locals.vars.length, []⟩,
      ⟨⟨s.locals.arg_count, s.locals.vars ++ [⟨s.locals.vars.length, none, ty⟩]⟩,
        s.nst ++ [ULLBC.Statement.new span (.Assign ⟨s.locals.vars.length, []⟩
          (.GlobalRef g .Mut))]⟩, ?_, rfl⟩
    simp [SimplifyConstants.transform_constant_expr,
      SimplifyConstants.new_var, Locals.new_var]
  · intro span bv bty ty s s1 c hbv hrec
    have harm := SimplifyConstants.transform_ref_arm span bv bty ty s s1
      (.Const c) hbv hrec
    refine ⟨⟨s1.locals.vars.length, []⟩, ⟨s1.locals.vars.length + 1, []⟩,
      ⟨⟨s1.locals.arg_count, s1.locals.vars ++
          [⟨s1.locals.vars.length, none, bty⟩,
           ⟨s1.locals.vars.length + 1, none, ty⟩]⟩,
        s1.nst ++
          [ULLBC.Statement.new span (.Assign ⟨s1.locals.vars.length, []⟩
            (.Use (.Const c))),
           ULLBC.Statement.new span (.Assign ⟨s1.locals.vars.length + 1, []⟩
            (.Ref ⟨s1.locals.vars.length, []⟩ .Shared))]⟩, ?_, rfl⟩
    rw [harm]
    simp [SimplifyConstants.new_var, Locals.new_var]
  · intro span bv bty ty s s1 p hbv hrec
    have harm := SimplifyConstants.transform_ref_arm span bv bty ty s s1
      (.Move p) hbv hrec
    refine ⟨⟨s1.locals.vars.length, []⟩,
      ⟨⟨s1.locals.arg_count, s1.locals.vars ++
          [⟨s1.locals.vars.length, none, ty⟩]⟩,
        s1.nst ++ [ULLBC.Statement.new span
          (.Assign ⟨s1.locals.vars.length, []⟩ (.Ref p .Shared))]⟩, ?_, rfl⟩
    rw [harm]
    simp [SimplifyConstants.new_var, Locals.new_var]
  · intro span bv bty ty s s1 c hbv hrec
    have harm := SimplifyConstants.transform_mutptr_arm span bv bty ty s s1
      (.Const c) hbv hrec
    refine ⟨⟨s1.locals.vars.length, []⟩, ⟨s1.locals.vars.length + 1, []⟩,
      ⟨⟨s1.locals.arg_count, s1.locals.vars ++
          [⟨s1.locals.vars.length, none, bty⟩,
           ⟨s1.locals.vars.length + 1, none, ty⟩]⟩,
        s1.nst ++
          [ULLBC.Statement.new span (.Assign ⟨s1.locals.vars.length, []⟩
            (.Use (.Const c))),
           ULLBC.Statement.new span (.Assign ⟨s1.locals.vars.length + 1, []⟩
            (.RawPtr ⟨s1.locals.vars.length, []⟩ .Mut))]⟩, ?_, rfl⟩
    rw [harm]
    simp [SimplifyConstants.new_var, Locals.new_var]
  · intro span bv bty ty s s1 p hbv hrec
    have harm := SimplifyConstants.transform_mutptr_arm span bv bty ty s s1
      (.Move p) hbv hrec
    refine ⟨⟨s1.locals.vars.length, []⟩,
      ⟨⟨s1.locals.arg_count, s1.locals.vars ++
          [⟨s1.locals.vars.length, none, ty⟩]⟩,
        s1.nst ++ [ULLBC.Statement.new span
          (.Assign ⟨s1.locals.vars.length, []⟩ (.RawPtr p .Mut))]⟩, ?_, rfl⟩
    rw [harm]
    simp [SimplifyConstants.new_var, Locals.new_var]

/-- Counterexample to C8 as stated: for a constant reference to a (non-global)
constant ADT, no `Use` statement binding the recursively normalized inner
value is emitted — the borrow is taken directly over the aggregate's
temporary, so the emitted statements never end with a Use-assignment
followed by the borrow over that temporary. -/
theorem constant_ref_normalization_cex :
    ¬ ∃ (pre : List ULLBC.Statement) (tmp refv : Place) (innerOp : Operand),
      (SimplifyConstants.transform_constant_expr 0
          (.mk (.Ref (.mk (.Adt none []) (.Adt .Tuple (.mk [] [] []))))
            (.Ref .Erased (.Adt .Tuple (.mk [] [] [])) .Shared))
          ⟨⟨0, []⟩, []⟩).map (fun r => r.2.nst) =
        some (pre ++
          [ULLBC.Statement.new 0 (.Assign tmp (.Use innerOp)),
           ULLBC.Statement.new 0 (.Assign refv (.Ref tmp .Shared))]) := by
  rintro ⟨pre, tmp, refv, innerOp, h⟩
  have hval : (SimplifyConstants.transform_constant_expr 0
      (.mk (.Ref (.mk (.Adt none []) (.Adt .Tuple (.mk [] [] []))))
        (.Ref .Erased (.Adt .Tuple (.mk [] [] [])) .Shared))
      ⟨⟨0, []⟩, []⟩).map (fun r => r.2.nst) =
      some [ULLBC.Statement.new 0 (.Assign ⟨0, []⟩
          (.Aggregate (.Adt .Tuple none none (.mk [] [] [])) [])),
        ULLBC.Statement.new 0 (.Assign ⟨1, []⟩ (.Ref ⟨0, []⟩ .Shared))] := rfl
  rw [hval] at h
  simp only [Option.some.injEq] at h
  cases pre with
  | nil => simp [ULLBC.Statement.new] at h
  | cons p ps =>
      have hlen := congrArg List.length h
      simp at hlen

/-- Witness for C8's amended theorem: a reference to a constant unit-struct;
only the aggregate binding and the direct borrow are emitted. -/
theorem constant_ref_normalization_witness :
    ∃ refv s3,
      SimplifyConstants.transform_constant_expr 0
          (.mk (.Ref (.mk (.Adt none []) (.Adt .Tuple (.mk [] [] []))))
            (.Ref .Erased (.Adt .Tuple (.mk [] [] [])) .Shared))
          ⟨⟨0, []⟩, []⟩ = some (.Move refv, s3) ∧
        s3.nst = [ULLBC.Statement.new 0 (.Assign ⟨0, []⟩
            (.Aggregate (.Adt .Tuple none none (.mk [] [] [])) []))] ++
          [ULLBC.Statement.new 0 (.Assign refv (.Ref ⟨0, []⟩ .Shared))] :=
  constant_ref_normalization.2.2.2.1 0 (.Adt none [])
    (.Adt .Tuple (.mk [] [] []))
    (.Ref .Erased (.Adt .Tuple (.mk [] [] [])) .Shared)
    ⟨⟨0, []⟩, []⟩
    ⟨⟨0, [⟨0, none, .Adt .Tuple (.mk [] [] [])⟩]⟩,
      [ULLBC.Statement.new 0 (.Assign ⟨0, []⟩
        (.Aggregate (.Adt .Tuple none none (.mk [] [] [])) []))]⟩
    ⟨0, []⟩
    (fun _ h => nomatch h)
    rfl

/-- C1: after `Transform::transform_body` of the constant-normalization pass,
every operand of every statement of the body (the freshly inserted
assignments included) and every operand in a terminator that is a constant
has one of the five simplified variants (literal, variable, raw memory,
trait const, function pointer): no Global, Ref, MutPtr, Adt or Array
constant expression remains. -/
theorem simplify_constants_leaves_only_simple_constants
    (body body2 : ULLBC.ExprBody)
    (h : SimplifyConstants.transform_body body = some body2) :
    ∀ b ∈ body2.body,
      (∀ st ∈ b.statements, ∀ op ∈ st.content.operands,
        op.normalized = true) ∧
      (∀ op ∈ b.terminator.content.operands, op.normalized = true) := by
  have hn := SimplifyConstants.transform_body_good body body2 h
  simp only [ULLBC.ExprBody.normalized, List.all_eq_true] at hn
  intro b hb
  have hbn := hn b hb
  simp only [ULLBC.BlockData.normalized, Bool.and_eq_true,
    List.all_eq_true] at hbn
  constructor
  · intro st hst op hop
    have h2 := hbn.1 st hst
    simp only [ULLBC.Statement.normalized, List.all_eq_true] at h2
    exact h2 op hop
  · have h2 := hbn.2
    simpa [ULLBC.Terminator.normalized, List.all_eq_true] using h2

/-- A one-block body assigning a constant unit-struct, used by the C1 and C7
witnesses. -/
def simplifyExampleBody : ULLBC.ExprBody :=
  ⟨⟨0, []⟩,
   [⟨[ULLBC.Statement.new 5 (.Assign ⟨9, []⟩
        (.Use (.Const (.mk (.Adt none []) (.Adt .Tuple (.mk [] [] []))))))],
     ⟨6, .Return, []⟩⟩]⟩

/-- The result of constant normalization on `simplifyExampleBody`: the
constant ADT is bound to a fresh local by an aggregate assignment. -/
def simplifyExampleResult : ULLBC.ExprBody :=
  ⟨⟨0, [⟨0, none, .Adt .Tuple (.mk [] [] [])⟩]⟩,
   [⟨[ULLBC.Statement.new 5 (.Assign ⟨0, []⟩
        (.Aggregate (.Adt .Tuple none none (.mk [] [] [])) [])),
      ⟨5, .Assign ⟨9, []⟩ (.Use (.Move ⟨0, []⟩)), []⟩],
     ⟨6, .Return, []⟩⟩]⟩

/-- Witness for C1 on `simplifyExampleBody`: the operand of the rewritten
assignment in the output body is normalized. -/
theorem simplify_constants_leaves_only_simple_constants_witness :
    Operand.normalized (.Move ⟨0, []⟩) = true :=
  (simplify_constants_leaves_only_simple_constants simplifyExampleBody
      simplifyExampleResult rfl
      ⟨[ULLBC.Statement.new 5 (.Assign ⟨0, []⟩
          (.Aggregate (.Adt .Tuple none none (.mk [] [] [])) [])),
        ⟨5, .Assign ⟨9, []⟩ (.Use (.Move ⟨0, []⟩)), []⟩],
       ⟨6, .Return, []⟩⟩ (by simp [simplifyExampleResult])).1
    ⟨5, .Assign ⟨9, []⟩ (.Use (.Move ⟨0, []⟩)), []⟩ (by simp)
    (.Move ⟨0, []⟩) (by simp [ULLBC.RawStatement.operands, Rvalue.operands])

/-- C7: the constant-normalization body transform is idempotent — a second
run on the body produced by a first run returns exactly the same body (same
locals table, same statements in every block), inserting nothing. -/
theorem simplify_constants_idempotent (body b1 : ULLBC.ExprBody)
    (h : SimplifyConstants.transform_body body = some b1) :
    SimplifyConstants.transform_body b1 = some b1 :=
  SimplifyConstants.transform_body_of_normalized b1
    (SimplifyConstants.transform_body_good body b1 h)

/-- Witness for C7 on `simplifyExampleBody`. -/
theorem simplify_constants_idempotent_witness :
    SimplifyConstants.transform_body simplifyExampleBody =
        some simplifyExampleResult ∧
      SimplifyConstants.transform_body simplifyExampleResult =
        some simplifyExampleResult :=
  ⟨rfl, simplify_constants_idempotent simplifyExampleBody
    simplifyExampleResult rfl⟩

end Charon
